import Mathlib

/-!
Verification of the comparison engine of the schema-diff script.

The script compares two web pages by extracting their JSON-LD structured
data, canonicalizing it (sorting object keys and array elements), and
computing a structural diff; a second pipeline canonicalizes HTML trees.
This file is a shallow embedding of those algorithms:

* `JsonValue` models JSON as a closed tagged variant (JSON.parse output);
  numbers are modelled as integers (the script's own examples and data
  use integral values; float formatting is outside the model).
* `sChars`/`jsonStringify` model `JSON.stringify` (stable key order as
  stored, standard string escaping).
* `localeCompareOrd` models `String.prototype.localeCompare` under the
  default root/English collation: the collation key is computed on a
  canonically decomposed form (canonically equivalent strings compare
  equal, as ECMA-262 requires of `localeCompare`), with a primary level
  that orders letters case-insensitively above digits and punctuation
  and a case level that puts a lowercase letter before its uppercase
  form. The comparison is a total preorder, not a total order: distinct
  strings — canonically equivalent ones — can compare equal.
* `codeUnitCmp` models the default (comparator-less) `Array.prototype.sort`
  string comparison: lexicographic on UTF-16 code units.
* `List.insertionSort` models `Array.prototype.sort` with a consistent
  comparator: the unique stable sorted rearrangement.
* `normalizeSchema`, `getSchemaType`, `groupSchemasByType`,
  `extractJsonLdSchemas`, `compareSchemasOfType`, `compareSchemas` are
  translated from `schema-diff.ts`; `ddiff` models the observable
  behaviour of the external `deep-diff` library on JSON values;
  `transformTree` is the DOM-rewriting phase of `transformHtml`.
-/

/-- JSON value as produced by `JSON.parse`: a closed tagged variant.
Numbers are modelled as integers. -/
inductive JsonValue where
  | null : JsonValue
  | bool (b : Bool) : JsonValue
  | num (n : Int) : JsonValue
  | str (s : String) : JsonValue
  | arr (elems : List JsonValue) : JsonValue
  | obj (fields : List (String × JsonValue)) : JsonValue

mutual

/-- Boolean structural equality on `JsonValue` (used to derive decidable
equality, which the nested inductive cannot derive automatically). -/
def jeq : JsonValue → JsonValue → Bool
  | .null, .null => true
  | .bool b, .bool c => b == c
  | .num n, .num m => n == m
  | .str s, .str t => s == t
  | .arr l, .arr m => jeqList l m
  | .obj fs, .obj gs => jeqFields fs gs
  | _, _ => false

/-- Pointwise `jeq` on lists of values. -/
def jeqList : List JsonValue → List JsonValue → Bool
  | [], [] => true
  | v :: vs, w :: ws => jeq v w && jeqList vs ws
  | _, _ => false

/-- Pointwise `jeq` on association lists. -/
def jeqFields : List (String × JsonValue) → List (String × JsonValue) → Bool
  | [], [] => true
  | (k, v) :: fs, (k2, w) :: gs => k == k2 && jeq v w && jeqFields fs gs
  | _, _ => false

end

mutual

theorem jeq_iff : ∀ v w, jeq v w = true ↔ v = w
  | .null, w => by cases w <;> simp [jeq]
  | .bool b, w => by cases w <;> simp [jeq]
  | .num n, w => by cases w <;> simp [jeq]
  | .str s, w => by cases w <;> simp [jeq]
  | .arr l, w => by
      cases w <;> simp [jeq]
      exact jeqList_iff l _
  | .obj fs, w => by
      cases w <;> simp [jeq]
      exact jeqFields_iff fs _

theorem jeqList_iff : ∀ l m, jeqList l m = true ↔ l = m
  | [], m => by cases m <;> simp [jeqList]
  | v :: vs, m => by
      cases m with
      | nil => simp [jeqList]
      | cons w ws => simp [jeqList, jeq_iff v w, jeqList_iff vs ws]

theorem jeqFields_iff : ∀ l m, jeqFields l m = true ↔ l = m
  | [], m => by cases m <;> simp [jeqFields]
  | (k, v) :: fs, m => by
      cases m with
      | nil => simp [jeqFields]
      | cons p gs =>
          obtain ⟨k2, w⟩ := p
          simp [jeqFields, jeq_iff v w, jeqFields_iff fs gs, and_assoc]

end

instance : DecidableEq JsonValue := fun v w =>
  decidable_of_iff (jeq v w = true) (jeq_iff v w)

/-! ### Lexicographic comparison on weight lists -/

/-- Lexicographic three-way comparison of `Nat` lists (element-wise, a
proper prefix comparing below its extensions). -/
def lexCmpNat : List Nat → List Nat → Ordering
  | [], [] => .eq
  | [], _ :: _ => .lt
  | _ :: _, [] => .gt
  | a :: l, b :: m => if a < b then .lt else if b < a then .gt else lexCmpNat l m

theorem lexCmpNat_eq_iff : ∀ l m, lexCmpNat l m = .eq ↔ l = m
  | [], [] => by simp [lexCmpNat]
  | [], _ :: _ => by simp [lexCmpNat]
  | _ :: _, [] => by simp [lexCmpNat]
  | a :: l, b :: m => by
      by_cases h1 : a < b
      · simp [lexCmpNat, h1]
        omega
      · by_cases h2 : b < a
        · simp [lexCmpNat, h1, h2]
          omega
        · have hab : a = b := by omega
          simp [lexCmpNat, h1, h2, hab, lexCmpNat_eq_iff l m]

theorem lexCmpNat_swap : ∀ l m, lexCmpNat m l = (lexCmpNat l m).swap
  | [], [] => by simp [lexCmpNat, Ordering.swap]
  | [], _ :: _ => by simp [lexCmpNat, Ordering.swap]
  | _ :: _, [] => by simp [lexCmpNat, Ordering.swap]
  | a :: l, b :: m => by
      by_cases h1 : a < b
      · simp [lexCmpNat, h1, Nat.lt_asymm h1, Ordering.swap]
      · by_cases h2 : b < a
        · simp [lexCmpNat, h1, h2, Ordering.swap]
        · simp [lexCmpNat, h1, h2, lexCmpNat_swap l m]

theorem lexCmpNat_le_trans :
    ∀ l m k, lexCmpNat l m ≠ .gt → lexCmpNat m k ≠ .gt → lexCmpNat l k ≠ .gt
  | [], m, k => by
      intro _ _
      cases k <;> simp [lexCmpNat]
  | a :: l, [], k => by simp [lexCmpNat]
  | a :: l, b :: m, [] => by
      intro _
      simp [lexCmpNat]
  | a :: l, b :: m, c :: k => by
      intro h1 h2
      simp only [lexCmpNat] at h1 h2 ⊢
      by_cases hab : a < b
      · by_cases hbc : b < c
        · have : a < c := Nat.lt_trans hab hbc
          simp [this]
        · by_cases hcb : c < b
          · simp [lexCmpNat, hbc, hcb] at h2
          · have : a < c := by omega
            simp [this]
      · by_cases hba : b < a
        · simp [hab, hba] at h1
        · have hab2 : a = b := by omega
          subst hab2
          by_cases hbc : a < c
          · simp [hbc]
          · by_cases hcb : c < a
            · simp [hbc, hcb] at h2
            · have : ¬ a < c ∧ ¬ c < a := ⟨hbc, hcb⟩
              simp [hbc, hcb] at h1 h2 ⊢
              exact lexCmpNat_le_trans l m k h1 h2

/-! ### Modelled JavaScript string primitives -/

/-- The character for a decimal digit. -/
def digitChar (n : Nat) : Char := Char.ofNat (48 + n)

/-- Decimal digits of a natural number, most significant first
(fuel-driven so that it evaluates by kernel reduction). -/
def natCharsAux : Nat → Nat → List Char
  | 0, _ => []
  | fuel + 1, n =>
      if n < 10 then [digitChar n]
      else natCharsAux fuel (n / 10) ++ [digitChar (n % 10)]

/-- Decimal rendering of a natural number, as `String(n)` produces. -/
def natChars (n : Nat) : List Char := natCharsAux (n + 1) n

/-- Decimal rendering of an integer, as JavaScript `String(i)` /
`JSON.stringify(i)` produce for integral numbers. -/
def intChars (i : Int) : List Char :=
  if i < 0 then '-' :: natChars i.natAbs else natChars i.natAbs

/-- Lowercase hexadecimal digit. -/
def hexChar (n : Nat) : Char :=
  if n < 10 then Char.ofNat (48 + n) else Char.ofNat (87 + n)

/-- The `JSON.stringify` escaping of one character inside a string literal:
quote and backslash are backslash-escaped, the five short control escapes
are used where available, remaining control characters become `\u00xx`,
everything else is emitted verbatim. -/
def escChar (c : Char) : List Char :=
  if c = '"' then ['\\', '"']
  else if c = '\\' then ['\\', '\\']
  else if c = '\x08' then ['\\', 'b']
  else if c = '\x09' then ['\\', 't']
  else if c = '\x0a' then ['\\', 'n']
  else if c = '\x0c' then ['\\', 'f']
  else if c = '\x0d' then ['\\', 'r']
  else if c.toNat < 32 then ['\\', 'u', '0', '0', hexChar (c.toNat / 16), hexChar (c.toNat % 16)]
  else [c]

/-- The `JSON.stringify` escaping of a character sequence. -/
def escList : List Char → List Char
  | [] => []
  | c :: cs => escChar c ++ escList cs

mutual

/-- Character sequence of `JSON.stringify(v)` (no indentation argument):
`null`/`true`/`false` literals, decimal numbers, escaped quoted strings,
comma-separated arrays in brackets and objects in braces, object keys in
stored order. -/
def sChars : JsonValue → List Char
  | .null => "null".data
  | .bool true => "true".data
  | .bool false => "false".data
  | .num n => intChars n
  | .str s => '"' :: (escList s.data ++ ['"'])
  | .arr l => '[' :: (sCharsArr l ++ [']'])
  | .obj fs => '\x7b' :: (sCharsObj fs ++ ['\x7d'])

/-- Comma-separated stringified array elements. -/
def sCharsArr : List JsonValue → List Char
  | [] => []
  | [v] => sChars v
  | v :: v2 :: vs => sChars v ++ ',' :: sCharsArr (v2 :: vs)

/-- Comma-separated stringified object entries (`"key":value`). -/
def sCharsObj : List (String × JsonValue) → List Char
  | [] => []
  | [(k, v)] => '"' :: (escList k.data ++ '"' :: ':' :: sChars v)
  | (k, v) :: q :: fs =>
      '"' :: (escList k.data ++ '"' :: ':' :: sChars v) ++ ',' :: sCharsObj (q :: fs)

end

/-- The string `JSON.stringify(v)`. -/
def jsonStringify (v : JsonValue) : String := String.mk (sChars v)

/-- Modelled builtin — primary collation weight of a character for
`localeCompare` under the root/English default collation: letters compare
case-insensitively and above all digits, punctuation and controls;
non-letters keep their scalar-value order below the letters. -/
def primWeight (c : Char) : Nat :=
  if 'a' ≤ c ∧ c ≤ 'z' then 1000000 + (c.toNat - 97)
  else if 'A' ≤ c ∧ c ≤ 'Z' then 1000000 + (c.toNat - 65)
  else 1 + c.toNat

/-- Modelled builtin — case weight of a character for `localeCompare`:
a lowercase letter sorts before the corresponding uppercase letter. -/
def caseWeight (c : Char) : Nat :=
  if 'A' ≤ c ∧ c ≤ 'Z' then 2 else 1

/-- Modelled builtin — canonical decomposition used by the modelled
collation. ECMA-262 requires `localeCompare` to compare canonically
equivalent strings as equal, so the collation key is computed on a
decomposed form. The model decomposes the one precomposed character
this development exercises, `\u00E9` (the letter é) into `e` followed by the
combining acute accent U+0301; every other character stands for itself
(real collation decomposes every canonically equivalent sequence the
same way). -/
def decomp (c : Char) : List Char :=
  if c.toNat = 233 then ['e', Char.ofNat 769] else [c]

/-- Modelled builtin — the collation key of a string under the modelled
`localeCompare`: the characters are canonically decomposed (`decomp`)
and the key lists the primary weights, then the case weights, the two
levels separated by `0` (strictly below every weight), so that key
comparison is lexicographic level by level. There is no further
tiebreak: as with the real `localeCompare`, distinct strings can
receive equal keys and so compare equal — canonically equivalent
strings, such as precomposed `"\u00E9"` and decomposed `"e\u0301"`,
always do. -/
def collKey (cs : List Char) : List Nat :=
  ((cs.map decomp).flatten.map primWeight) ++ 0 :: (cs.map decomp).flatten.map caseWeight

/-- Modelled builtin — `a.localeCompare(b)` (sign only, as an
`Ordering`) under the default root/English collation described at
`collKey`. -/
def localeCompareOrd (s t : String) : Ordering :=
  lexCmpNat (collKey s.data) (collKey t.data)

/-- UTF-16 code units of a character (surrogate pair for astral
characters), as JavaScript strings store it. -/
def utf16Units (c : Char) : List Nat :=
  if c.toNat < 65536 then [c.toNat]
  else [55296 + (c.toNat - 65536) / 1024, 56320 + (c.toNat - 65536) % 1024]

/-- UTF-16 code-unit sequence of a string. -/
def utf16OfStr (s : String) : List Nat := (s.data.map utf16Units).flatten

/-- Code-unit-order string comparison: lexicographic on UTF-16 code
units. This is the comparison of `<`/`>` on JavaScript strings and of
the default (comparator-less) `Array.prototype.sort`. -/
def codeUnitCmp (s t : String) : Ordering :=
  lexCmpNat (utf16OfStr s) (utf16OfStr t)

/-- The array-element comparator of `normalizeSchema` (and of the
instance-list sort in `compareSchemasOfType`), as a relation suitable
for a stable sort: `(a, b) => JSON.stringify(a).localeCompare(JSON.stringify(b))`,
kept when the comparator does not say "greater". -/
def rv (a b : JsonValue) : Prop :=
  localeCompareOrd (jsonStringify a) (jsonStringify b) ≠ Ordering.gt

instance : DecidableRel rv := fun a b => by
  unfold rv
  infer_instance

/-- The key comparator of the object-key sort `Object.keys(schema).sort()`
(default sort, hence code-unit order), lifted to key/value pairs. -/
def rk (p q : String × JsonValue) : Prop :=
  codeUnitCmp p.1 q.1 ≠ Ordering.gt

instance : DecidableRel rk := fun p q => by
  unfold rk
  infer_instance

theorem rv_total : ∀ a b, rv a b ∨ rv b a := by
  intro a b
  unfold rv localeCompareOrd
  rw [lexCmpNat_swap]
  cases hE : lexCmpNat (collKey (jsonStringify b).data) (collKey (jsonStringify a).data) <;>
    simp [Ordering.swap]

theorem rv_trans : ∀ a b c, rv a b → rv b c → rv a c := by
  intro a b c h1 h2
  exact lexCmpNat_le_trans _ _ _ h1 h2

instance : IsTotal JsonValue rv := ⟨rv_total⟩

instance : IsTrans JsonValue rv := ⟨rv_trans⟩

theorem rk_total : ∀ p q, rk p q ∨ rk q p := by
  intro p q
  unfold rk codeUnitCmp
  rw [lexCmpNat_swap]
  cases hE : lexCmpNat (utf16OfStr q.1) (utf16OfStr p.1) <;> simp [Ordering.swap]

theorem rk_trans : ∀ p q u, rk p q → rk q u → rk p u := by
  intro p q u h1 h2
  exact lexCmpNat_le_trans _ _ _ h1 h2

instance : IsTotal (String × JsonValue) rk := ⟨rk_total⟩

instance : IsTrans (String × JsonValue) rk := ⟨rk_trans⟩

/-! ### The schema canonicalizer (`normalizeSchema`) -/

mutual

/-- Function `normalizeSchema` from `schema-diff.ts`: scalars pass through; an
array maps `normalizeSchema` over its elements and then sorts them with
the comparator `(a, b) => JSON.stringify(a).localeCompare(JSON.stringify(b))`
(stable sort, modelled by `List.insertionSort rv`); an object is rebuilt
over `Object.keys(schema).sort()` (default code-unit key order) with
each value normalized recursively — since a JavaScript object's keys
are pairwise distinct, iterating the sorted keys and reading each key's
value is the same as stably sorting the key/value pairs by key, which is
how the object branch is rendered here. -/
def normalizeSchema : JsonValue → JsonValue
  | .null => .null
  | .bool b => .bool b
  | .num n => .num n
  | .str s => .str s
  | .arr l => .arr (List.insertionSort rv (normalizeList l))
  | .obj fs => .obj (List.insertionSort rk (normalizeFields fs))

/-- The map `schema.map(normalizeSchema)` on an array's elements. -/
def normalizeList : List JsonValue → List JsonValue
  | [] => []
  | v :: vs => normalizeSchema v :: normalizeList vs

/-- Normalization of each value of an object's key/value pairs. -/
def normalizeFields : List (String × JsonValue) → List (String × JsonValue)
  | [] => []
  | (k, v) :: fs => (k, normalizeSchema v) :: normalizeFields fs

end

theorem normalizeList_eq_map : ∀ l, normalizeList l = l.map normalizeSchema
  | [] => rfl
  | v :: vs => by simp [normalizeList, normalizeList_eq_map vs]

theorem normalizeFields_eq_map :
    ∀ fs, normalizeFields fs = fs.map (fun p => (p.1, normalizeSchema p.2))
  | [] => rfl
  | (k, v) :: fs => by simp [normalizeFields, normalizeFields_eq_map fs]

example :
    normalizeSchema (.arr [.str "a", .str "B"]) = .arr [.str "a", .str "B"] := by decide

example :
    normalizeSchema (.arr [.str "B", .str "a"]) = .arr [.str "a", .str "B"] := by decide

/-! ### Injectivity of the modelled `JSON.stringify`

The array comparator ties exactly when two stringified forms are equal,
so the uniqueness of a stable sort's output (and with it the
order-insensitivity of canonicalization) rests on `JSON.stringify` being
injective on JSON values. This is proved by showing the rendering is a
prefix code: a rendered value followed by a separator determines the
value and the rest of the text. -/

theorem char_toNat_ofNat (n : Nat) (h : n < 55296) : (Char.ofNat n).toNat = n := by
  have hv : n.isValidChar := Or.inl h
  rw [Char.ofNat, dif_pos hv]
  simp [Char.ofNatAux, Char.toNat, UInt32.toNat, BitVec.toNat_ofNatLt]

theorem char_toNat_inj {c d : Char} (h : c.toNat = d.toNat) : c = d := by
  apply Char.ext
  exact UInt32.toNat.inj h

/-- A decimal digit character. -/
def isDigCh (c : Char) : Prop := 48 ≤ c.toNat ∧ c.toNat ≤ 57

instance : DecidablePred isDigCh := fun c => by
  unfold isDigCh
  infer_instance

theorem digitChar_toNat {n : Nat} (h : n < 10) : (digitChar n).toNat = 48 + n :=
  char_toNat_ofNat _ (by omega)

theorem digitChar_isDig {n : Nat} (h : n < 10) : isDigCh (digitChar n) := by
  unfold isDigCh
  rw [digitChar_toNat h]
  omega

theorem digitChar_inj {n m : Nat} (hn : n < 10) (hm : m < 10)
    (h : digitChar n = digitChar m) : n = m := by
  have := congrArg Char.toNat h
  rw [digitChar_toNat hn, digitChar_toNat hm] at this
  omega

theorem natCharsAux_ne_nil : ∀ f n, n < f → natCharsAux f n ≠ []
  | f + 1, n, _ => by
      unfold natCharsAux
      by_cases h : n < 10 <;> simp [h]

theorem natCharsAux_digits :
    ∀ f n, n < f → ∀ c ∈ natCharsAux f n, isDigCh c
  | f + 1, n, hf => by
      unfold natCharsAux
      by_cases h : n < 10
      · simp [h]
        exact digitChar_isDig h
      · simp [h]
        intro c hc
        rcases hc with hc | hc
        · have hdiv : n / 10 < f := by
            have := Nat.div_lt_self (by omega : 0 < n) (by omega : 1 < 10)
            omega
          exact natCharsAux_digits f (n / 10) hdiv c hc
        · subst hc
          exact digitChar_isDig (by omega)

theorem natCharsAux_inj :
    ∀ f g n m, n < f → m < g → natCharsAux f n = natCharsAux g m → n = m
  | f + 1, g + 1, n, m, hf, hg => by
      unfold natCharsAux
      by_cases hn : n < 10 <;> by_cases hm : m < 10 <;> simp [hn, hm]
      · exact fun h => digitChar_inj hn hm h
      · intro h
        exfalso
        have hdiv : m / 10 < g := by
          have := Nat.div_lt_self (by omega : 0 < m) (by omega : 1 < 10)
          omega
        obtain ⟨c, cs, hK⟩ : ∃ c cs, natCharsAux g (m / 10) = c :: cs := by
          cases hA : natCharsAux g (m / 10) with
          | nil => exact absurd hA (natCharsAux_ne_nil g (m / 10) hdiv)
          | cons c cs => exact ⟨c, cs, rfl⟩
        rw [hK] at h
        simp at h
      · intro h
        exfalso
        have hdiv : n / 10 < f := by
          have := Nat.div_lt_self (by omega : 0 < n) (by omega : 1 < 10)
          omega
        obtain ⟨c, cs, hK⟩ : ∃ c cs, natCharsAux f (n / 10) = c :: cs := by
          cases hA : natCharsAux f (n / 10) with
          | nil => exact absurd hA (natCharsAux_ne_nil f (n / 10) hdiv)
          | cons c cs => exact ⟨c, cs, rfl⟩
        rw [hK] at h
        simp at h
      · intro h
        have hdivn : n / 10 < f := by
          have := Nat.div_lt_self (by omega : 0 < n) (by omega : 1 < 10)
          omega
        have hdivm : m / 10 < g := by
          have := Nat.div_lt_self (by omega : 0 < m) (by omega : 1 < 10)
          omega
        have hlen : (natCharsAux f (n / 10)).length = (natCharsAux g (m / 10)).length := by
          have := congrArg List.length h
          simp at this
          omega
        obtain ⟨h1, h2⟩ := List.append_inj h hlen
        have hmod : n % 10 = m % 10 := by
          have : digitChar (n % 10) = digitChar (m % 10) := by simpa using h2
          exact digitChar_inj (by omega) (by omega) this
        have hdiv : n / 10 = m / 10 := natCharsAux_inj f g (n / 10) (m / 10) hdivn hdivm h1
        omega

theorem natChars_ne_nil (n : Nat) : natChars n ≠ [] :=
  natCharsAux_ne_nil (n + 1) n (by omega)

theorem natChars_digits (n : Nat) : ∀ c ∈ natChars n, isDigCh c :=
  natCharsAux_digits (n + 1) n (by omega)

theorem natChars_inj {n m : Nat} (h : natChars n = natChars m) : n = m :=
  natCharsAux_inj (n + 1) (m + 1) n m (by omega) (by omega) h

theorem natChars_cons (n : Nat) : ∃ c cs, natChars n = c :: cs ∧ isDigCh c := by
  cases hK : natChars n with
  | nil => exact absurd hK (natChars_ne_nil n)
  | cons c cs =>
      refine ⟨c, cs, rfl, ?_⟩
      have : c ∈ natChars n := by rw [hK]; exact List.mem_cons_self c cs
      exact natChars_digits n c this

theorem intChars_cons (i : Int) :
    ∃ c cs, intChars i = c :: cs ∧ (c = '-' ∨ isDigCh c) := by
  unfold intChars
  by_cases h : i < 0
  · rw [if_pos h]
    exact ⟨'-', natChars i.natAbs, rfl, Or.inl rfl⟩
  · rw [if_neg h]
    obtain ⟨c, cs, hK, hd⟩ := natChars_cons i.natAbs
    exact ⟨c, cs, hK, Or.inr hd⟩

/-- The list starts with a decimal digit (position guard for parsing a
rendered number). -/
def digStart : List Char → Prop
  | [] => False
  | c :: _ => isDigCh c

theorem digit_run :
    ∀ xs ys r u, (∀ c ∈ xs, isDigCh c) → (∀ c ∈ ys, isDigCh c) →
      ¬ digStart r → ¬ digStart u → xs ++ r = ys ++ u → xs = ys ∧ r = u := by
  intro xs
  induction xs with
  | nil =>
      intro ys r u _ hys hr _ h
      cases ys with
      | nil => simpa using h
      | cons d ys2 =>
          exfalso
          apply hr
          simp at h
          rw [h]
          show isDigCh d
          exact hys d (List.mem_cons_self d ys2)
  | cons c xs2 ih =>
      intro ys r u hxs hys hr hu h
      cases ys with
      | nil =>
          exfalso
          apply hu
          simp at h
          rw [← h]
          show isDigCh c
          exact hxs c (List.mem_cons_self c xs2)
      | cons d ys2 =>
          simp at h
          obtain ⟨hcd, h2⟩ := h
          subst hcd
          obtain ⟨h3, h4⟩ := ih ys2 r u (fun e he => hxs e (List.mem_cons_of_mem c he))
            (fun e he => hys e (List.mem_cons_of_mem c he)) hr hu h2
          exact ⟨by rw [h3], h4⟩

theorem intChars_tok :
    ∀ (i j : Int) r u, ¬ digStart r → ¬ digStart u →
      intChars i ++ r = intChars j ++ u → i = j ∧ r = u := by
  intro i j r u hr hu h
  unfold intChars at h
  have hminus : ¬ isDigCh '-' := by decide
  by_cases hi : i < 0 <;> by_cases hj : j < 0 <;> simp [hi, hj] at h
  · obtain ⟨h1, h2⟩ := digit_run _ _ r u (natChars_digits _) (natChars_digits _) hr hu h
    have := natChars_inj h1
    constructor
    · omega
    · exact h2
  · exfalso
    obtain ⟨c, cs, hK, hd⟩ := natChars_cons j.natAbs
    rw [hK] at h
    simp at h
    obtain ⟨hc, _⟩ := h
    rw [← hc] at hd
    exact hminus hd
  · exfalso
    obtain ⟨c, cs, hK, hd⟩ := natChars_cons i.natAbs
    rw [hK] at h
    simp at h
    obtain ⟨hc, _⟩ := h
    rw [hc] at hd
    exact hminus hd
  · obtain ⟨h1, h2⟩ := digit_run _ _ r u (natChars_digits _) (natChars_digits _) hr hu h
    have := natChars_inj h1
    constructor
    · omega
    · exact h2

/-- Value of a lowercase hexadecimal digit character. -/
def hexVal (c : Char) : Nat :=
  if c.toNat ≤ 57 then c.toNat - 48 else c.toNat - 87

theorem hexVal_hexChar {n : Nat} (h : n < 16) : hexVal (hexChar n) = n := by
  unfold hexVal hexChar
  by_cases h10 : n < 10
  · rw [if_pos h10]
    rw [char_toNat_ofNat _ (by omega)]
    rw [if_pos (by omega)]
    omega
  · rw [if_neg h10]
    rw [char_toNat_ofNat _ (by omega)]
    rw [if_neg (by omega)]
    omega

/-- One-step decoder of the `escChar` encoding: reads one escaped
character off the front of the text. Only used to show `escChar` is a
prefix code. -/
def unesc1 : List Char → Option (Char × List Char)
  | [] => none
  | c :: r =>
      if c = '\\' then
        match r with
        | [] => none
        | d :: r2 =>
            if d = '"' then some ('"', r2)
            else if d = '\\' then some ('\\', r2)
            else if d = 'b' then some ('\x08', r2)
            else if d = 't' then some ('\x09', r2)
            else if d = 'n' then some ('\x0a', r2)
            else if d = 'f' then some ('\x0c', r2)
            else if d = 'r' then some ('\x0d', r2)
            else if d = 'u' then
              match r2 with
              | h1 :: h2 :: h3 :: h4 :: r3 =>
                  some (Char.ofNat (4096 * hexVal h1 + 256 * hexVal h2 + 16 * hexVal h3 + hexVal h4), r3)
              | _ => none
            else none
      else some (c, r)

theorem unesc1_escChar : ∀ c r, unesc1 (escChar c ++ r) = some (c, r) := by
  intro c r
  unfold escChar
  by_cases h1 : c = '"'
  · subst h1; rfl
  rw [if_neg h1]
  by_cases h2 : c = '\\'
  · subst h2; rfl
  rw [if_neg h2]
  by_cases h3 : c = '\x08'
  · subst h3; rfl
  rw [if_neg h3]
  by_cases h4 : c = '\x09'
  · subst h4; rfl
  rw [if_neg h4]
  by_cases h5 : c = '\x0a'
  · subst h5; rfl
  rw [if_neg h5]
  by_cases h6 : c = '\x0c'
  · subst h6; rfl
  rw [if_neg h6]
  by_cases h7 : c = '\x0d'
  · subst h7; rfl
  rw [if_neg h7]
  by_cases h8 : c.toNat < 32
  · rw [if_pos h8]
    have hstep :
        unesc1 ('\\' :: 'u' :: '0' :: '0' :: hexChar (c.toNat / 16) :: hexChar (c.toNat % 16) :: r)
          = some (Char.ofNat (4096 * hexVal '0' + 256 * hexVal '0'
              + 16 * hexVal (hexChar (c.toNat / 16)) + hexVal (hexChar (c.toNat % 16))), r) := rfl
    rw [List.cons_append, List.cons_append, List.cons_append, List.cons_append,
      List.cons_append, List.cons_append, List.nil_append]
    rw [hstep, hexVal_hexChar (by omega), hexVal_hexChar (by omega)]
    have hv : (4096 * hexVal '0' + 256 * hexVal '0' + 16 * (c.toNat / 16) + c.toNat % 16)
        = c.toNat := by
      have h0 : hexVal '0' = 0 := by decide
      rw [h0]
      omega
    rw [hv, Char.ofNat_toNat]
  · rw [if_neg h8]
    show unesc1 (c :: r) = some (c, r)
    simp only [unesc1]
    rw [if_neg h2]

theorem escChar_cons : ∀ c, ∃ x xs, escChar c = x :: xs ∧ x ≠ '"' := by
  intro c
  unfold escChar
  by_cases h1 : c = '"'
  · rw [if_pos h1]; exact ⟨'\\', _, rfl, by decide⟩
  rw [if_neg h1]
  by_cases h2 : c = '\\'
  · rw [if_pos h2]; exact ⟨'\\', _, rfl, by decide⟩
  rw [if_neg h2]
  by_cases h3 : c = '\x08'
  · rw [if_pos h3]; exact ⟨'\\', _, rfl, by decide⟩
  rw [if_neg h3]
  by_cases h4 : c = '\x09'
  · rw [if_pos h4]; exact ⟨'\\', _, rfl, by decide⟩
  rw [if_neg h4]
  by_cases h5 : c = '\x0a'
  · rw [if_pos h5]; exact ⟨'\\', _, rfl, by decide⟩
  rw [if_neg h5]
  by_cases h6 : c = '\x0c'
  · rw [if_pos h6]; exact ⟨'\\', _, rfl, by decide⟩
  rw [if_neg h6]
  by_cases h7 : c = '\x0d'
  · rw [if_pos h7]; exact ⟨'\\', _, rfl, by decide⟩
  rw [if_neg h7]
  by_cases h8 : c.toNat < 32
  · rw [if_pos h8]; exact ⟨'\\', _, rfl, by decide⟩
  · rw [if_neg h8]; exact ⟨c, [], rfl, h1⟩

theorem escList_term :
    ∀ s t r u, escList s ++ '"' :: r = escList t ++ '"' :: u → s = t ∧ r = u := by
  intro s
  induction s with
  | nil =>
      intro t r u h
      cases t with
      | nil => simpa using h
      | cons d t2 =>
          exfalso
          obtain ⟨x, xs, hx, hq⟩ := escChar_cons d
          simp only [escList, List.nil_append, hx, List.cons_append, List.append_assoc] at h
          exact hq (by
            have := h
            simp at this
            exact (this.1).symm)
  | cons c s2 ih =>
      intro t r u h
      cases t with
      | nil =>
          exfalso
          obtain ⟨x, xs, hx, hq⟩ := escChar_cons c
          simp only [escList, List.nil_append, hx, List.cons_append, List.append_assoc] at h
          exact hq (by
            have := h
            simp at this
            exact this.1)
      | cons d t2 =>
          simp only [escList, List.append_assoc] at h
          have hd := congrArg unesc1 h
          rw [unesc1_escChar, unesc1_escChar] at hd
          simp at hd
          obtain ⟨hcd, htail⟩ := hd
          subst hcd
          obtain ⟨h1, h2⟩ := ih t2 r u htail
          exact ⟨by rw [h1], h2⟩

/-- The character after a rendered value inside a rendered context: a
separator or closer (or the end of the text). -/
def goodTail : List Char → Prop
  | [] => True
  | c :: _ => c = ',' ∨ c = ']' ∨ c = '\x7d'

theorem goodTail_not_digStart : ∀ r, goodTail r → ¬ digStart r
  | [] => by intro _ h; exact h
  | c :: cs => by
      intro hg hd
      have hdig : isDigCh c := hd
      rcases hg with h | h | h <;> subst h <;> exact absurd hdig (by decide)

/-- Constructor discriminator of a JSON value. -/
def ctorTag : JsonValue → Nat
  | .null => 0
  | .bool _ => 1
  | .num _ => 2
  | .str _ => 3
  | .arr _ => 4
  | .obj _ => 5

/-- The constructor a stringified value's first character betrays. -/
def headTagOfChar (c : Char) : Nat :=
  if c = 'n' then 0
  else if c = 't' ∨ c = 'f' then 1
  else if c = '-' ∨ isDigCh c then 2
  else if c = '"' then 3
  else if c = '[' then 4
  else if c = '\x7b' then 5
  else 6

theorem sChars_cons : ∀ v, ∃ c cs, sChars v = c :: cs ∧ headTagOfChar c = ctorTag v := by
  intro v
  cases v with
  | null => exact ⟨'n', _, rfl, by decide⟩
  | bool b =>
      cases b
      · exact ⟨'f', _, rfl, (by decide : headTagOfChar 'f' = 1)⟩
      · exact ⟨'t', _, rfl, (by decide : headTagOfChar 't' = 1)⟩
  | num n =>
      obtain ⟨c, cs, hK, hd⟩ := intChars_cons n
      refine ⟨c, cs, hK, ?_⟩
      show headTagOfChar c = 2
      rcases hd with rfl | hd
      · decide
      · unfold headTagOfChar
        have h1 : c ≠ 'n' := by
          intro h
          subst h
          exact absurd hd (by decide)
        have h2 : ¬ (c = 't' ∨ c = 'f') := by
          rintro (h | h) <;> subst h <;> exact absurd hd (by decide)
        rw [if_neg h1, if_neg h2, if_pos (Or.inr hd)]
  | str s => exact ⟨'"', _, rfl, (by decide : headTagOfChar '"' = 3)⟩
  | arr l => exact ⟨'[', _, rfl, (by decide : headTagOfChar '[' = 4)⟩
  | obj fs => exact ⟨'\x7b', _, rfl, (by decide : headTagOfChar '\x7b' = 5)⟩

theorem sChars_append_head (w : JsonValue) (z : List Char) :
    ∃ c cs, sChars w ++ z = c :: cs ∧ headTagOfChar c = ctorTag w := by
  obtain ⟨c, cs, hw, hc⟩ := sChars_cons w
  refine ⟨c, cs ++ z, ?_, hc⟩
  rw [hw]
  rfl

theorem tag_eq_of_append {v w : JsonValue} {r u : List Char}
    (h : sChars v ++ r = sChars w ++ u) : ctorTag v = ctorTag w := by
  obtain ⟨c, cs, hv, hc⟩ := sChars_append_head v r
  obtain ⟨d, ds, hw, hd⟩ := sChars_append_head w u
  rw [hv, hw] at h
  simp at h
  rw [← hc, ← hd, h.1]

theorem rbracket_not_value_start {w : JsonValue} {z r : List Char}
    (h : ']' :: r = sChars w ++ z) : False := by
  obtain ⟨c, cs, he, hc⟩ := sChars_append_head w z
  rw [he] at h
  simp at h
  obtain ⟨h1, -⟩ := h
  rw [← h1] at hc
  cases w <;> simp only [ctorTag] at hc <;> exact absurd hc (by decide)

theorem string_ext {s t : String} (h : s.data = t.data) : s = t := by
  cases s
  cases t
  simp_all

mutual

theorem sChars_pref : ∀ v w r u, goodTail r → goodTail u →
    sChars v ++ r = sChars w ++ u → v = w ∧ r = u
  | .null, w, r, u => by
      intro hr hu h
      have htag := tag_eq_of_append h
      cases w <;> simp only [ctorTag] at htag <;> try exact absurd htag (by decide)
      refine ⟨rfl, ?_⟩
      simpa [sChars] using h
  | .bool b, w, r, u => by
      intro hr hu h
      have htag := tag_eq_of_append h
      cases w <;> simp only [ctorTag] at htag <;> try exact absurd htag (by decide)
      rename_i b2
      cases b <;> cases b2
      · exact ⟨rfl, by simpa [sChars] using h⟩
      · exfalso
        simp [sChars] at h
      · exfalso
        simp [sChars] at h
      · exact ⟨rfl, by simpa [sChars] using h⟩
  | .num n, w, r, u => by
      intro hr hu h
      have htag := tag_eq_of_append h
      cases w <;> simp only [ctorTag] at htag <;> try exact absurd htag (by decide)
      rename_i m
      simp only [sChars] at h
      obtain ⟨hnm, hru⟩ := intChars_tok n m r u (goodTail_not_digStart r hr)
        (goodTail_not_digStart u hu) h
      exact ⟨by rw [hnm], hru⟩
  | .str s, w, r, u => by
      intro hr hu h
      have htag := tag_eq_of_append h
      cases w <;> simp only [ctorTag] at htag <;> try exact absurd htag (by decide)
      rename_i t
      simp only [sChars, List.cons_append, List.append_assoc, List.singleton_append] at h
      rw [List.cons.injEq] at h
      obtain ⟨-, h⟩ := h
      obtain ⟨hdata, hru⟩ := escList_term _ _ _ _ h
      have hst : s = t := string_ext hdata
      exact ⟨by rw [hst], hru⟩
  | .arr l, w, r, u => by
      intro hr hu h
      have htag := tag_eq_of_append h
      cases w <;> simp only [ctorTag] at htag <;> try exact absurd htag (by decide)
      rename_i m
      simp only [sChars, List.cons_append, List.append_assoc, List.singleton_append] at h
      rw [List.cons.injEq] at h
      obtain ⟨-, h⟩ := h
      obtain ⟨hlm, hru⟩ := sCharsArr_pref l m r u h
      exact ⟨by rw [hlm], hru⟩
  | .obj fs, w, r, u => by
      intro hr hu h
      have htag := tag_eq_of_append h
      cases w <;> simp only [ctorTag] at htag <;> try exact absurd htag (by decide)
      rename_i gs
      simp only [sChars, List.cons_append, List.append_assoc, List.singleton_append] at h
      rw [List.cons.injEq] at h
      obtain ⟨-, h⟩ := h
      obtain ⟨hfg, hru⟩ := sCharsObj_pref fs gs r u h
      exact ⟨by rw [hfg], hru⟩

theorem sCharsArr_pref : ∀ l m r u,
    sCharsArr l ++ ']' :: r = sCharsArr m ++ ']' :: u → l = m ∧ r = u
  | [], m, r, u => by
      intro h
      cases m with
      | nil => simpa [sCharsArr] using h
      | cons w ws =>
          exfalso
          cases ws with
          | nil =>
              simp only [sCharsArr, List.nil_append] at h
              exact rbracket_not_value_start h
          | cons w2 ws2 =>
              simp only [sCharsArr, List.nil_append, List.append_assoc, List.cons_append] at h
              exact rbracket_not_value_start h
  | [v], m, r, u => by
      intro h
      cases m with
      | nil =>
          exfalso
          simp only [sCharsArr, List.nil_append] at h
          exact rbracket_not_value_start h.symm
      | cons w ws =>
          cases ws with
          | nil =>
              simp only [sCharsArr] at h
              obtain ⟨hvw, htail⟩ := sChars_pref v w (']' :: r) (']' :: u)
                (Or.inr (Or.inl rfl)) (Or.inr (Or.inl rfl)) h
              rw [List.cons.injEq] at htail
              exact ⟨by rw [hvw], htail.2⟩
          | cons w2 ws2 =>
              exfalso
              simp only [sCharsArr, List.append_assoc, List.cons_append] at h
              obtain ⟨-, htail⟩ := sChars_pref v w (']' :: r)
                (',' :: (sCharsArr (w2 :: ws2) ++ ']' :: u))
                (Or.inr (Or.inl rfl)) (Or.inl rfl) h
              simp at htail
  | v :: v2 :: vs, m, r, u => by
      intro h
      cases m with
      | nil =>
          exfalso
          simp only [sCharsArr, List.nil_append, List.append_assoc, List.cons_append] at h
          exact rbracket_not_value_start h.symm
      | cons w ws =>
          cases ws with
          | nil =>
              exfalso
              simp only [sCharsArr, List.append_assoc, List.cons_append] at h
              obtain ⟨-, htail⟩ := sChars_pref v w
                (',' :: (sCharsArr (v2 :: vs) ++ ']' :: r)) (']' :: u)
                (Or.inl rfl) (Or.inr (Or.inl rfl)) h
              simp at htail
          | cons w2 ws2 =>
              simp only [sCharsArr, List.append_assoc, List.cons_append] at h
              obtain ⟨hvw, htail⟩ := sChars_pref v w
                (',' :: (sCharsArr (v2 :: vs) ++ ']' :: r))
                (',' :: (sCharsArr (w2 :: ws2) ++ ']' :: u))
                (Or.inl rfl) (Or.inl rfl) h
              rw [List.cons.injEq] at htail
              obtain ⟨-, htail⟩ := htail
              obtain ⟨hlm, hru⟩ := sCharsArr_pref (v2 :: vs) (w2 :: ws2) r u htail
              exact ⟨by rw [hvw, hlm], hru⟩

theorem sCharsObj_pref : ∀ fs gs r u,
    sCharsObj fs ++ '\x7d' :: r = sCharsObj gs ++ '\x7d' :: u → fs = gs ∧ r = u
  | [], gs, r, u => by
      intro h
      cases gs with
      | nil => simpa [sCharsObj] using h
      | cons p ps =>
          exfalso
          obtain ⟨k2, w⟩ := p
          cases ps with
          | nil => simp [sCharsObj] at h
          | cons q qs => simp [sCharsObj] at h
  | [(k, v)], gs, r, u => by
      intro h
      cases gs with
      | nil =>
          exfalso
          simp [sCharsObj] at h
      | cons p ps =>
          obtain ⟨k2, w⟩ := p
          cases ps with
          | nil =>
              simp only [sCharsObj, List.cons_append, List.append_assoc,
                List.singleton_append] at h
              rw [List.cons.injEq] at h
              obtain ⟨-, h⟩ := h
              obtain ⟨hkk, htail⟩ := escList_term _ _ _ _ h
              rw [List.cons.injEq] at htail
              obtain ⟨-, htail⟩ := htail
              obtain ⟨hvw, htail2⟩ := sChars_pref v w ('\x7d' :: r) ('\x7d' :: u)
                (Or.inr (Or.inr rfl)) (Or.inr (Or.inr rfl)) htail
              rw [List.cons.injEq] at htail2
              have hk : k = k2 := string_ext hkk
              exact ⟨by rw [hk, hvw], htail2.2⟩
          | cons q qs =>
              exfalso
              simp only [sCharsObj, List.cons_append, List.append_assoc,
                List.singleton_append] at h
              rw [List.cons.injEq] at h
              obtain ⟨-, h⟩ := h
              obtain ⟨-, htail⟩ := escList_term _ _ _ _ h
              rw [List.cons.injEq] at htail
              obtain ⟨-, htail⟩ := htail
              obtain ⟨-, htail2⟩ := sChars_pref v w ('\x7d' :: r)
                (',' :: (sCharsObj (q :: qs) ++ '\x7d' :: u))
                (Or.inr (Or.inr rfl)) (Or.inl rfl) htail
              simp at htail2
  | (k, v) :: p2 :: fs, gs, r, u => by
      intro h
      cases gs with
      | nil =>
          exfalso
          simp [sCharsObj] at h
      | cons p ps =>
          obtain ⟨k2, w⟩ := p
          cases ps with
          | nil =>
              exfalso
              simp only [sCharsObj, List.cons_append, List.append_assoc,
                List.singleton_append] at h
              rw [List.cons.injEq] at h
              obtain ⟨-, h⟩ := h
              obtain ⟨-, htail⟩ := escList_term _ _ _ _ h
              rw [List.cons.injEq] at htail
              obtain ⟨-, htail⟩ := htail
              obtain ⟨-, htail2⟩ := sChars_pref v w
                (',' :: (sCharsObj (p2 :: fs) ++ '\x7d' :: r)) ('\x7d' :: u)
                (Or.inl rfl) (Or.inr (Or.inr rfl)) htail
              simp at htail2
          | cons q qs =>
              simp only [sCharsObj, List.cons_append, List.append_assoc,
                List.singleton_append] at h
              rw [List.cons.injEq] at h
              obtain ⟨-, h⟩ := h
              obtain ⟨hkk, htail⟩ := escList_term _ _ _ _ h
              rw [List.cons.injEq] at htail
              obtain ⟨-, htail⟩ := htail
              obtain ⟨hvw, htail2⟩ := sChars_pref v w
                (',' :: (sCharsObj (p2 :: fs) ++ '\x7d' :: r))
                (',' :: (sCharsObj (q :: qs) ++ '\x7d' :: u))
                (Or.inl rfl) (Or.inl rfl) htail
              rw [List.cons.injEq] at htail2
              obtain ⟨-, htail2⟩ := htail2
              obtain ⟨hfg, hru⟩ := sCharsObj_pref (p2 :: fs) (q :: qs) r u htail2
              have hk : k = k2 := string_ext hkk
              exact ⟨by rw [hk, hvw, hfg], hru⟩

end

theorem sChars_inj {v w : JsonValue} (h : sChars v = sChars w) : v = w := by
  have h2 : sChars v ++ ([] : List Char) = sChars w ++ [] := by rw [h]
  exact (sChars_pref v w [] [] trivial trivial h2).1

theorem jsonStringify_inj {v w : JsonValue} (h : jsonStringify v = jsonStringify w) :
    v = w := by
  unfold jsonStringify at h
  exact sChars_inj (congrArg String.data h)

/-! ### Injectivity of the UTF-16 rendering (key order is a total order) -/

theorem char_nat_valid (c : Char) :
    c.toNat < 55296 ∨ (57343 < c.toNat ∧ c.toNat < 1114112) := by
  rcases c.valid with h | ⟨h1, h2⟩
  · left
    exact h
  · right
    exact ⟨h1, h2⟩

theorem utf16_flat_inj :
    ∀ cs ds : List Char, (cs.map utf16Units).flatten = (ds.map utf16Units).flatten → cs = ds := by
  intro cs
  induction cs with
  | nil =>
      intro ds h
      cases ds with
      | nil => rfl
      | cons d ds2 =>
          exfalso
          simp only [List.map_nil, List.flatten_nil, List.map_cons, List.flatten_cons] at h
          unfold utf16Units at h
          by_cases hd : d.toNat < 65536 <;> simp [hd] at h
  | cons c cs2 ih =>
      intro ds h
      cases ds with
      | nil =>
          exfalso
          simp only [List.map_nil, List.flatten_nil, List.map_cons, List.flatten_cons] at h
          unfold utf16Units at h
          by_cases hc : c.toNat < 65536 <;> simp [hc] at h
      | cons d ds2 =>
          simp only [List.map_cons, List.flatten_cons, List.append_assoc] at h
          have hcv := char_nat_valid c
          have hdv := char_nat_valid d
          unfold utf16Units at h
          by_cases hc : c.toNat < 65536 <;> by_cases hd : d.toNat < 65536 <;>
            simp only [hc, hd, if_pos, if_neg, List.cons_append, List.nil_append,
              List.cons.injEq, reduceIte] at h
          · obtain ⟨h1, h2⟩ := h
            have : c = d := char_toNat_inj h1
            subst this
            rw [ih ds2 h2]
          · exfalso
            obtain ⟨h1, -⟩ := h
            have hq : (d.toNat - 65536) / 1024 < 1024 := by omega
            omega
          · exfalso
            obtain ⟨h1, -⟩ := h
            have hq : (c.toNat - 65536) / 1024 < 1024 := by omega
            omega
          · obtain ⟨h1, h2, h3⟩ := h
            have hcd : c.toNat = d.toNat := by
              have e1 : (c.toNat - 65536) / 1024 = (d.toNat - 65536) / 1024 := by omega
              have e2 : (c.toNat - 65536) % 1024 = (d.toNat - 65536) % 1024 := by omega
              have m1 := Nat.div_add_mod (c.toNat - 65536) 1024
              have m2 := Nat.div_add_mod (d.toNat - 65536) 1024
              omega
            have : c = d := char_toNat_inj hcd
            subst this
            rw [ih ds2 h3]

theorem utf16OfStr_inj {s t : String} (h : utf16OfStr s = utf16OfStr t) : s = t :=
  string_ext (utf16_flat_inj _ _ h)

theorem codeUnitCmp_eq_iff {s t : String} : codeUnitCmp s t = .eq ↔ s = t := by
  constructor
  · intro h
    unfold codeUnitCmp at h
    rw [lexCmpNat_eq_iff] at h
    exact utf16OfStr_inj h
  · intro h
    subst h
    unfold codeUnitCmp
    rw [lexCmpNat_eq_iff]

/-- The strict-or-equal version of the key order: antisymmetric, so two
sorted rearrangements of the same duplicate-free-keyed pairs coincide. -/
def rkStrict (p q : String × JsonValue) : Prop :=
  codeUnitCmp p.1 q.1 = Ordering.lt ∨ p = q

instance : IsAntisymm (String × JsonValue) rkStrict := by
  constructor
  intro p q h1 h2
  rcases h1 with h1 | h1
  · rcases h2 with h2 | h2
    · exfalso
      rw [show codeUnitCmp q.1 p.1 = lexCmpNat (utf16OfStr q.1) (utf16OfStr p.1) from rfl,
        lexCmpNat_swap] at h2
      rw [show codeUnitCmp p.1 q.1 = lexCmpNat (utf16OfStr p.1) (utf16OfStr q.1) from rfl] at h1
      rw [h1] at h2
      exact absurd h2 (by decide)
    · exact h2.symm
  · exact h1

theorem sorted_rkStrict_of_nodup (L : List (String × JsonValue))
    (hnd : (L.map Prod.fst).Nodup) :
    List.Pairwise rkStrict (List.insertionSort rk L) := by
  have hs : List.Pairwise rk (List.insertionSort rk L) := List.sorted_insertionSort rk L
  have hnd2 : ((List.insertionSort rk L).map Prod.fst).Nodup := by
    have hp := (List.perm_insertionSort rk L).map Prod.fst
    exact hp.nodup_iff.mpr hnd
  have hne : List.Pairwise (fun p q : String × JsonValue => p.1 ≠ q.1)
      (List.insertionSort rk L) := List.pairwise_map.mp hnd2
  refine (hs.and hne).imp ?_
  rintro p q ⟨hrk, hpq⟩
  cases hE : codeUnitCmp p.1 q.1 with
  | lt => exact Or.inl hE
  | eq => exact absurd (codeUnitCmp_eq_iff.mp hE) hpq
  | gt => exact absurd hE hrk

/-- Two rearrangements of the same key/value pairs (with pairwise
distinct keys, as a JavaScript object guarantees) sort to the same
list under the key order. -/
theorem sortPairs_eq_of_perm {l₁ l₂ : List (String × JsonValue)}
    (hperm : l₁.Perm l₂) (hnd : (l₁.map Prod.fst).Nodup) :
    List.insertionSort rk l₁ = List.insertionSort rk l₂ := by
  apply List.eq_of_perm_of_sorted (r := rkStrict)
  · exact (List.perm_insertionSort rk l₁).trans
      (hperm.trans (List.perm_insertionSort rk l₂).symm)
  · exact sorted_rkStrict_of_nodup l₁ hnd
  · exact sorted_rkStrict_of_nodup l₂ (((hperm.map Prod.fst).nodup_iff).mp hnd)

/-! ### Idempotence of canonicalization -/

mutual

theorem normalizeSchema_idem : ∀ v, normalizeSchema (normalizeSchema v) = normalizeSchema v
  | .null => rfl
  | .bool b => rfl
  | .num n => rfl
  | .str s => rfl
  | .arr l => by
      have helem : ∀ x ∈ List.insertionSort rv (normalizeList l), normalizeSchema x = x := by
        intro x hx
        rw [List.mem_insertionSort] at hx
        exact normalizeList_norm l x hx
      show JsonValue.arr (List.insertionSort rv
          (normalizeList (List.insertionSort rv (normalizeList l))))
        = JsonValue.arr (List.insertionSort rv (normalizeList l))
      congr 1
      have h1 : normalizeList (List.insertionSort rv (normalizeList l))
          = List.insertionSort rv (normalizeList l) := by
        rw [normalizeList_eq_map]
        have := List.map_congr_left (f := normalizeSchema) (g := id) helem
        simpa using this
      rw [h1]
      exact List.Sorted.insertionSort_eq (List.sorted_insertionSort rv (normalizeList l))
  | .obj fs => by
      have helem : ∀ p ∈ List.insertionSort rk (normalizeFields fs),
          normalizeSchema p.2 = p.2 := by
        intro p hp
        rw [List.mem_insertionSort] at hp
        exact normalizeFields_norm fs p hp
      show JsonValue.obj (List.insertionSort rk
          (normalizeFields (List.insertionSort rk (normalizeFields fs))))
        = JsonValue.obj (List.insertionSort rk (normalizeFields fs))
      congr 1
      have h1 : normalizeFields (List.insertionSort rk (normalizeFields fs))
          = List.insertionSort rk (normalizeFields fs) := by
        rw [normalizeFields_eq_map]
        have := List.map_congr_left
          (f := fun p : String × JsonValue => (p.1, normalizeSchema p.2)) (g := id)
          (by
            intro p hp
            have := helem p hp
            simp [this])
        simpa using this
      rw [h1]
      exact List.Sorted.insertionSort_eq (List.sorted_insertionSort rk (normalizeFields fs))

theorem normalizeList_norm : ∀ l, ∀ x ∈ normalizeList l, normalizeSchema x = x
  | [] => by simp [normalizeList]
  | v :: vs => by
      intro x hx
      rw [normalizeList] at hx
      rcases List.mem_cons.mp hx with rfl | hx
      · exact normalizeSchema_idem v
      · exact normalizeList_norm vs x hx

theorem normalizeFields_norm : ∀ fs, ∀ p ∈ normalizeFields fs, normalizeSchema p.2 = p.2
  | [] => by simp [normalizeFields]
  | (k, v) :: fs => by
      intro p hp
      rw [normalizeFields] at hp
      rcases List.mem_cons.mp hp with rfl | hp
      · exact normalizeSchema_idem v
      · exact normalizeFields_norm fs p hp

end

/-! ### Claims about the canonicalizer (C1, C3, C4) -/

/-- Modelled from the spec: the array comparator as the specification
words it — byte/code-unit order comparison of the elements'
JSON-serialized string forms. The code itself compares with
`localeCompare` instead; this definition exists only to be measured
against the code's comparator. -/
def rvSpec (a b : JsonValue) : Prop :=
  codeUnitCmp (jsonStringify a) (jsonStringify b) ≠ Ordering.gt

instance : DecidableRel rvSpec := fun a b => by
  unfold rvSpec
  infer_instance

/-- C1 counterexample: sorting by code-unit order of the serialized
forms (the spec's comparator) does not reproduce `normalizeSchema` —
on `["a", "B"]` the code's `localeCompare` keeps `"a"` before `"B"`
while code-unit order puts `"B"` (code unit 66) before `"a"` (97). -/
theorem C1_counterexample :
    ¬ ∀ l : List JsonValue, normalizeSchema (.arr l)
        = .arr (List.insertionSort rvSpec (l.map normalizeSchema)) := by
  intro hAll
  have h := hAll [.str "a", .str "B"]
  revert h
  decide

/-- C1 (amended): for every JSON array, `normalizeSchema` canonicalizes
each element recursively and then stably sorts the canonical elements by
`localeCompare` (locale-aware collation, not code-unit order) of their
JSON-serialized string forms: the result is exactly the sorted
rearrangement of the canonicalized elements under that order. -/
theorem C1_array_sort_localeCompare : ∀ l : List JsonValue,
    normalizeSchema (.arr l) = .arr (List.insertionSort rv (l.map normalizeSchema))
    ∧ List.Sorted rv (List.insertionSort rv (l.map normalizeSchema))
    ∧ (List.insertionSort rv (l.map normalizeSchema)).Perm (l.map normalizeSchema) := by
  intro l
  refine ⟨?_, List.sorted_insertionSort rv _, List.perm_insertionSort rv _⟩
  show JsonValue.arr (List.insertionSort rv (normalizeList l)) = _
  rw [normalizeList_eq_map]

/-- C3: canonicalization is idempotent — for every JSON value `v`,
`normalizeSchema (normalizeSchema v)` is structurally identical to
`normalizeSchema v`. -/
theorem C3_canonicalize_idempotent :
    ∀ v : JsonValue, normalizeSchema (normalizeSchema v) = normalizeSchema v :=
  normalizeSchema_idem

/-- C4 counterexample: order-insensitivity as claimed fails for arrays.
The comparator `JSON.stringify(a).localeCompare(JSON.stringify(b))`
returns `0` on the canonically equivalent strings `"\u00E9"` (the
precomposed letter é) and `"e\u0301"` (its decomposed form, `e`
followed by the combining acute accent), the stable sort keeps tied
elements in input order, and so the two permuted arrays
`["e\u0301", "\u00E9"]` and `["\u00E9", "e\u0301"]` canonicalize to
structurally different values. -/
theorem C4_counterexample :
    ¬ ((∀ fs gs : List (String × JsonValue), (fs.map Prod.fst).Nodup → fs.Perm gs →
          normalizeSchema (.obj fs) = normalizeSchema (.obj gs))
      ∧ (∀ xs ys : List JsonValue, xs.Perm ys →
          normalizeSchema (.arr xs) = normalizeSchema (.arr ys))) := by
  intro hAll
  have h := hAll.2 [.str "e\u0301", .str "\u00E9"] [.str "\u00E9", .str "e\u0301"]
    (List.Perm.swap _ _ _)
  revert h
  decide

/-- C4 (amended): canonicalization is order-insensitive for objects —
permuting an object's key/value pairs (keys of a JSON object are
pairwise distinct) leaves the canonical form structurally identical.
For arrays it is order-insensitive only up to element order: permuting
an array's elements yields a canonical array holding exactly the same
canonical elements (a permutation), each side sorted by the comparator,
but not necessarily in the same order, because `localeCompare` ties
distinct elements whose serialized forms are canonically equivalent and
the stable sort then keeps tied elements in input order. -/
theorem C4_order_insensitivity_amended :
    (∀ fs gs : List (String × JsonValue), (fs.map Prod.fst).Nodup → fs.Perm gs →
        normalizeSchema (.obj fs) = normalizeSchema (.obj gs))
    ∧ (∀ xs ys : List JsonValue, xs.Perm ys →
        ∃ cs ds : List JsonValue,
          normalizeSchema (.arr xs) = .arr cs ∧ normalizeSchema (.arr ys) = .arr ds
          ∧ cs.Perm ds ∧ List.Sorted rv cs ∧ List.Sorted rv ds) := by
  constructor
  · intro fs gs hnd hperm
    show JsonValue.obj (List.insertionSort rk (normalizeFields fs))
      = JsonValue.obj (List.insertionSort rk (normalizeFields gs))
    congr 1
    rw [normalizeFields_eq_map, normalizeFields_eq_map]
    apply sortPairs_eq_of_perm (hperm.map _)
    have hkeys : ((fs.map fun p => (p.1, normalizeSchema p.2)).map Prod.fst)
        = fs.map Prod.fst := by
      rw [List.map_map]
      rfl
    rw [hkeys]
    exact hnd
  · intro xs ys hperm
    refine ⟨List.insertionSort rv (normalizeList xs),
      List.insertionSort rv (normalizeList ys), rfl, rfl, ?_,
      List.sorted_insertionSort rv _, List.sorted_insertionSort rv _⟩
    have hmap : (normalizeList xs).Perm (normalizeList ys) := by
      rw [normalizeList_eq_map, normalizeList_eq_map]
      exact hperm.map normalizeSchema
    exact (List.perm_insertionSort rv _).trans
      (hmap.trans (List.perm_insertionSort rv _).symm)

/-- C4 witness: the amended order-insensitivity theorem applied to a
concrete key-permuted two-key object and a concrete element-permuted
two-element array. -/
theorem C4_order_insensitivity_amended_witness :
    normalizeSchema (.obj [("b", JsonValue.num 1), ("a", JsonValue.num 2)])
        = normalizeSchema (.obj [("a", JsonValue.num 2), ("b", JsonValue.num 1)])
    ∧ ∃ cs ds : List JsonValue,
        normalizeSchema (.arr [.str "x", .null]) = .arr cs
        ∧ normalizeSchema (.arr [.null, .str "x"]) = .arr ds
        ∧ cs.Perm ds ∧ List.Sorted rv cs ∧ List.Sorted rv ds :=
  ⟨C4_order_insensitivity_amended.1 [("b", JsonValue.num 1), ("a", JsonValue.num 2)]
      [("a", JsonValue.num 2), ("b", JsonValue.num 1)] (by decide) (by decide),
    C4_order_insensitivity_amended.2 [.str "x", .null] [.null, .str "x"] (by decide)⟩

/-! ### The structural differ (model of the external `deep-diff` library) -/

/-- One step of a diff path: an object key or an array index. -/
inductive PathSeg where
  | key (s : String) : PathSeg
  | idx (n : Nat) : PathSeg
deriving DecidableEq

/-- A difference reported by `deep-diff`: new (`N`), deleted (`D`),
edited (`E`), or an array-length change (`A`, carrying the index and the
nested element-level entry whose own path is empty). -/
inductive DiffEntry where
  | added (path : List PathSeg) (rhs : JsonValue) : DiffEntry
  | deleted (path : List PathSeg) (lhs : JsonValue) : DiffEntry
  | edited (path : List PathSeg) (lhs rhs : JsonValue) : DiffEntry
  | arrayChange (path : List PathSeg) (index : Nat) (item : DiffEntry) : DiffEntry
deriving DecidableEq

/-- JavaScript property read `fs[k]` on an object modelled as its
key/value list: the value at the first occurrence of the key. -/
def jsLookup (fs : List (String × JsonValue)) (k : String) : Option JsonValue :=
  (fs.find? (fun p => p.1 == k)).map Prod.snd

/-- The `A` entries `deep-diff` emits for the indices only one side has:
for the longer side's extra indices, descending, a nested `N`/`D` item. -/
def arrayExtras (path : List PathSeg) (xs ys : List JsonValue) : List DiffEntry :=
  if xs.length < ys.length then
    (List.range (ys.length - xs.length)).map (fun j =>
      .arrayChange path (ys.length - 1 - j) (.added [] (ys.getD (ys.length - 1 - j) .null)))
  else
    (List.range (xs.length - ys.length)).map (fun j =>
      .arrayChange path (xs.length - 1 - j) (.deleted [] (xs.getD (xs.length - 1 - j) .null)))

/-- The `N` entries `deep-diff` emits for keys of the right object that
the left object lacks. -/
def addedFields (path : List PathSeg) (fs gs : List (String × JsonValue)) : List DiffEntry :=
  (gs.filter (fun q => (jsLookup fs q.1).isNone)).map
    (fun q => .added (path ++ [.key q.1]) q.2)

mutual

/-- Observable behaviour of `deep-diff`'s `diff` on JSON values (no
prefilter; `NaN`, dates and functions cannot occur in the model):
differing runtime types give an `E` entry; objects recurse over the left
side's keys (a key absent on the right gives `D`, shared keys recurse
with the key appended to the path) and then report the right side's new
keys as `N`; arrays report `A` entries for the longer side's extra
indices and recurse index-wise over the shared prefix with the index
appended to the path; equal scalars give nothing, differing scalars an
`E`. The library pushes the recursion entries from the highest shared
index down; this model renders the same entries ascending (no claim
depends on the order of entries). -/
def ddiff (path : List PathSeg) : JsonValue → JsonValue → List DiffEntry
  | .null, .null => []
  | .bool b, .bool c => if b = c then [] else [.edited path (.bool b) (.bool c)]
  | .num n, .num m => if n = m then [] else [.edited path (.num n) (.num m)]
  | .str s, .str t => if s = t then [] else [.edited path (.str s) (.str t)]
  | .arr xs, .arr ys => arrayExtras path xs ys ++ ddiffZip path 0 xs ys
  | .obj fs, .obj gs => ddiffFieldsL path fs gs ++ addedFields path fs gs
  | l, r => [.edited path l r]

/-- Recursion of `deep-diff` over the left object's keys. -/
def ddiffFieldsL (path : List PathSeg) :
    List (String × JsonValue) → List (String × JsonValue) → List DiffEntry
  | [], _ => []
  | (k, v) :: fs, gs =>
      (match jsLookup gs k with
       | some w => ddiff (path ++ [.key k]) v w
       | none => [.deleted (path ++ [.key k]) v]) ++ ddiffFieldsL path fs gs

/-- Index-wise recursion of `deep-diff` over the shared prefix of two
arrays (`i` is the index of the current heads). -/
def ddiffZip (path : List PathSeg) (i : Nat) :
    List JsonValue → List JsonValue → List DiffEntry
  | x :: xs, y :: ys => ddiff (path ++ [.idx i]) x y ++ ddiffZip path (i + 1) xs ys
  | _, _ => []

end

/-! ### Well-formed and canonical values -/

/-- Duplicate-freedom of a key list (a JavaScript object cannot carry
the same key twice). -/
def keysNodupB : List String → Bool
  | [] => true
  | k :: ks => (!(ks.contains k)) && keysNodupB ks

theorem keysNodupB_iff : ∀ ks : List String, keysNodupB ks = true ↔ ks.Nodup
  | [] => by simp [keysNodupB]
  | k :: ks => by
      simp [keysNodupB, keysNodupB_iff ks, List.nodup_cons]

/-- Strict ascent of a key list in code-unit order. -/
def keysStrictB : List String → Bool
  | [] => true
  | [_] => true
  | k1 :: k2 :: ks => (codeUnitCmp k1 k2 == Ordering.lt) && keysStrictB (k2 :: ks)

mutual

/-- Well-formed JSON value: every object's keys are pairwise distinct
(true of everything `JSON.parse` can produce). -/
def wfJ : JsonValue → Bool
  | .null => true
  | .bool _ => true
  | .num _ => true
  | .str _ => true
  | .arr l => wfList l
  | .obj fs => keysNodupB (fs.map Prod.fst) && wfFields fs

def wfList : List JsonValue → Bool
  | [] => true
  | v :: vs => wfJ v && wfList vs

def wfFields : List (String × JsonValue) → Bool
  | [] => true
  | (_, v) :: fs => wfJ v && wfFields fs

end

mutual

/-- Canonical value: every object's keys are strictly ascending in
code-unit order (hence distinct), recursively. `normalizeSchema` of a
well-formed value is canonical. -/
def canonB : JsonValue → Bool
  | .null => true
  | .bool _ => true
  | .num _ => true
  | .str _ => true
  | .arr l => canonList l
  | .obj fs => keysStrictB (fs.map Prod.fst) && canonFields fs

def canonList : List JsonValue → Bool
  | [] => true
  | v :: vs => canonB v && canonList vs

def canonFields : List (String × JsonValue) → Bool
  | [] => true
  | (_, v) :: fs => canonB v && canonFields fs

end

theorem wfList_iff_mem : ∀ l, wfList l = true ↔ ∀ x ∈ l, wfJ x = true
  | [] => by simp [wfList]
  | v :: vs => by simp [wfList, wfList_iff_mem vs]

theorem wfFields_iff_mem : ∀ fs, wfFields fs = true ↔ ∀ p ∈ fs, wfJ p.2 = true
  | [] => by simp [wfFields]
  | (k, v) :: fs => by simp [wfFields, wfFields_iff_mem fs]

theorem canonList_iff_mem : ∀ l, canonList l = true ↔ ∀ x ∈ l, canonB x = true
  | [] => by simp [canonList]
  | v :: vs => by simp [canonList, canonList_iff_mem vs]

theorem canonFields_iff_mem : ∀ fs, canonFields fs = true ↔ ∀ p ∈ fs, canonB p.2 = true
  | [] => by simp [canonFields]
  | (k, v) :: fs => by simp [canonFields, canonFields_iff_mem fs]

theorem keysStrictB_of_pairwise :
    ∀ L : List (String × JsonValue),
      List.Pairwise (fun p q : String × JsonValue => codeUnitCmp p.1 q.1 = Ordering.lt) L →
      keysStrictB (L.map Prod.fst) = true
  | [] => by simp [keysStrictB]
  | [p] => by simp [keysStrictB]
  | p :: q :: L => by
      intro h
      rw [List.pairwise_cons] at h
      obtain ⟨hhead, htail⟩ := h
      have hrec := keysStrictB_of_pairwise (q :: L) htail
      simp only [List.map_cons] at hrec ⊢
      rw [keysStrictB]
      simp [hrec]
      rw [hhead q (List.mem_cons_self q L)]
      rfl

mutual

theorem norm_canon : ∀ v, wfJ v = true → canonB (normalizeSchema v) = true
  | .null => fun _ => rfl
  | .bool b => fun _ => rfl
  | .num n => fun _ => rfl
  | .str s => fun _ => rfl
  | .arr l => by
      intro hwf
      show canonB (.arr (List.insertionSort rv (normalizeList l))) = true
      show canonList (List.insertionSort rv (normalizeList l)) = true
      rw [canonList_iff_mem]
      intro x hx
      rw [List.mem_insertionSort] at hx
      exact norm_canon_list l (by simpa [wfJ] using hwf) x hx
  | .obj fs => by
      intro hwf
      rw [show wfJ (.obj fs) = (keysNodupB (fs.map Prod.fst) && wfFields fs) from rfl] at hwf
      rw [Bool.and_eq_true] at hwf
      obtain ⟨hnd, hfs⟩ := hwf
      show canonB (.obj (List.insertionSort rk (normalizeFields fs))) = true
      rw [show canonB (.obj (List.insertionSort rk (normalizeFields fs)))
          = (keysStrictB ((List.insertionSort rk (normalizeFields fs)).map Prod.fst)
            && canonFields (List.insertionSort rk (normalizeFields fs))) from rfl]
      rw [Bool.and_eq_true]
      constructor
      · have hnd2 : ((normalizeFields fs).map Prod.fst).Nodup := by
          rw [normalizeFields_eq_map, List.map_map]
          exact (keysNodupB_iff _).mp hnd
        have hpair := sorted_rkStrict_of_nodup (normalizeFields fs) hnd2
        have hne : List.Pairwise (fun p q : String × JsonValue => p.1 ≠ q.1)
            (List.insertionSort rk (normalizeFields fs)) := by
          apply List.pairwise_map.mp
          exact ((List.perm_insertionSort rk (normalizeFields fs)).map
            Prod.fst).nodup_iff.mpr hnd2
        apply keysStrictB_of_pairwise
        refine (hpair.and hne).imp ?_
        rintro p q ⟨hst, hne2⟩
        rcases hst with hlt | heq
        · exact hlt
        · exact absurd (congrArg Prod.fst heq) hne2
      · rw [canonFields_iff_mem]
        intro p hp
        rw [List.mem_insertionSort] at hp
        exact norm_canon_fields fs hfs p hp

theorem norm_canon_list :
    ∀ l, wfList l = true → ∀ x ∈ normalizeList l, canonB x = true
  | [] => by simp [normalizeList]
  | v :: vs => by
      intro hwf x hx
      rw [wfList, Bool.and_eq_true] at hwf
      rw [normalizeList] at hx
      rcases List.mem_cons.mp hx with rfl | hx
      · exact norm_canon v hwf.1
      · exact norm_canon_list vs hwf.2 x hx

theorem norm_canon_fields :
    ∀ fs, wfFields fs = true → ∀ p ∈ normalizeFields fs, canonB p.2 = true
  | [] => by simp [normalizeFields]
  | (k, v) :: fs => by
      intro hwf p hp
      rw [wfFields, Bool.and_eq_true] at hwf
      rw [normalizeFields] at hp
      rcases List.mem_cons.mp hp with rfl | hp
      · exact norm_canon v hwf.1
      · exact norm_canon_fields fs hwf.2 p hp

end

/-! ### Lookup and strict-key lemmas -/

theorem jsLookup_cons_ne {k k2 : String} {w2 : JsonValue} {gs : List (String × JsonValue)}
    (h : k2 ≠ k) : jsLookup ((k2, w2) :: gs) k = jsLookup gs k := by
  unfold jsLookup
  rw [List.find?_cons_of_neg]
  simpa using h

theorem jsLookup_cons_self {k : String} {w : JsonValue} {gs : List (String × JsonValue)} :
    jsLookup ((k, w) :: gs) k = some w := by
  unfold jsLookup
  rw [List.find?_cons_of_pos]
  · rfl
  · simp

theorem jsLookup_isSome_iff {fs : List (String × JsonValue)} {k : String} :
    (jsLookup fs k).isSome ↔ k ∈ fs.map Prod.fst := by
  unfold jsLookup
  rw [Option.isSome_map']
  rw [List.find?_isSome]
  constructor
  · rintro ⟨q, hq, hbeq⟩
    have : q.1 = k := by simpa using hbeq
    rw [← this]
    exact List.mem_map_of_mem Prod.fst hq
  · intro hk
    rw [List.mem_map] at hk
    obtain ⟨q, hq, hqk⟩ := hk
    exact ⟨q, hq, by simp [hqk]⟩

theorem jsLookup_mem {fs : List (String × JsonValue)} {k : String} {w : JsonValue}
    (h : jsLookup fs k = some w) : (k, w) ∈ fs := by
  unfold jsLookup at h
  rw [Option.map_eq_some'] at h
  obtain ⟨q, hq, hqw⟩ := h
  have h1 : q.1 = k := by
    have := List.find?_some hq
    simpa using this
  have h2 : q ∈ fs := List.mem_of_find?_eq_some hq
  have : q = (k, w) := by
    obtain ⟨a, b⟩ := q
    simp at h1 hqw
    rw [h1, hqw]
  rw [← this]
  exact h2

theorem jsLookup_of_nodup_mem :
    ∀ {fs : List (String × JsonValue)} {p : String × JsonValue},
      (fs.map Prod.fst).Nodup → p ∈ fs → jsLookup fs p.1 = some p.2 := by
  intro fs
  induction fs with
  | nil => intro p _ hp; simp at hp
  | cons q fs ih =>
      intro p hnd hp
      obtain ⟨k2, w2⟩ := q
      simp only [List.map_cons, List.nodup_cons] at hnd
      rcases List.mem_cons.mp hp with rfl | hp
      · exact jsLookup_cons_self
      · have hne : k2 ≠ p.1 := by
          intro he
          apply hnd.1
          rw [he]
          exact List.mem_map_of_mem Prod.fst hp
        rw [jsLookup_cons_ne hne]
        exact ih hnd.2 hp

theorem addedFields_eq_nil_iff {path : List PathSeg} {fs gs : List (String × JsonValue)} :
    addedFields path fs gs = [] ↔ ∀ q ∈ gs, (jsLookup fs q.1).isSome := by
  unfold addedFields
  rw [List.map_eq_nil_iff, List.filter_eq_nil_iff]
  have hiff : ∀ q : String × JsonValue,
      (¬ (jsLookup fs q.1).isNone = true) ↔ (jsLookup fs q.1).isSome = true := by
    intro q
    cases jsLookup fs q.1 <;> simp
  constructor
  · intro h q hq
    exact (hiff q).mp (h q hq)
  · intro h q hq
    exact (hiff q).mpr (h q hq)

theorem arrayExtras_nil_length {path : List PathSeg} {xs ys : List JsonValue}
    (h : arrayExtras path xs ys = []) : xs.length = ys.length := by
  unfold arrayExtras at h
  by_cases hlt : xs.length < ys.length
  · rw [if_pos hlt] at h
    rw [List.map_eq_nil_iff, List.range_eq_nil] at h
    omega
  · rw [if_neg hlt] at h
    rw [List.map_eq_nil_iff, List.range_eq_nil] at h
    omega

theorem arrayExtras_self {path : List PathSeg} {xs : List JsonValue} :
    arrayExtras path xs xs = [] := by
  unfold arrayExtras
  simp

theorem lexCmpNat_lt_trans {a b c : List Nat}
    (h1 : lexCmpNat a b = .lt) (h2 : lexCmpNat b c = .lt) : lexCmpNat a c = .lt := by
  have hle : lexCmpNat a c ≠ .gt :=
    lexCmpNat_le_trans a b c (by rw [h1]; decide) (by rw [h2]; decide)
  cases hE : lexCmpNat a c with
  | lt => rfl
  | eq =>
      exfalso
      rw [lexCmpNat_eq_iff] at hE
      subst hE
      rw [lexCmpNat_swap] at h2
      rw [h1] at h2
      exact absurd h2 (by decide)
  | gt => exact absurd hE hle

theorem cuLt_trans {a b c : String}
    (h1 : codeUnitCmp a b = .lt) (h2 : codeUnitCmp b c = .lt) : codeUnitCmp a c = .lt :=
  lexCmpNat_lt_trans h1 h2

theorem keysStrictB_tail : ∀ {k : String} {ks : List String},
    keysStrictB (k :: ks) = true → keysStrictB ks = true := by
  intro k ks h
  cases ks with
  | nil => rfl
  | cons k2 ks =>
      rw [keysStrictB, Bool.and_eq_true] at h
      exact h.2

theorem keysStrict_head_lt : ∀ {ks : List String} {k : String},
    keysStrictB (k :: ks) = true → ∀ k' ∈ ks, codeUnitCmp k k' = .lt := by
  intro ks
  induction ks with
  | nil => intro k _ k' hk'; simp at hk'
  | cons k2 ks ih =>
      intro k h k' hk'
      rw [keysStrictB, Bool.and_eq_true] at h
      have hk12 : codeUnitCmp k k2 = .lt := by
        have h1 := h.1
        cases hE : codeUnitCmp k k2
        · rfl
        · rw [hE] at h1
          exact absurd h1 (by decide)
        · rw [hE] at h1
          exact absurd h1 (by decide)
      rcases List.mem_cons.mp hk' with rfl | hk'
      · exact hk12
      · exact cuLt_trans hk12 (ih h.2 k' hk')

theorem keysStrict_nodup : ∀ ks : List String, keysStrictB ks = true → ks.Nodup := by
  intro ks
  induction ks with
  | nil => intro _; exact List.nodup_nil
  | cons k ks ih =>
      intro h
      rw [List.nodup_cons]
      constructor
      · intro hk
        have := keysStrict_head_lt h k hk
        rw [codeUnitCmp_eq_iff.mpr rfl] at this
        exact absurd this (by decide)
      · exact ih (keysStrictB_tail h)

theorem ddiffFieldsL_congr_gs :
    ∀ (path : List PathSeg) (fs : List (String × JsonValue)) (k2 : String)
      (w2 : JsonValue) (gs : List (String × JsonValue)),
      (∀ p ∈ fs, p.1 ≠ k2) →
      ddiffFieldsL path fs ((k2, w2) :: gs) = ddiffFieldsL path fs gs := by
  intro path fs k2 w2 gs
  induction fs with
  | nil => intro _; rfl
  | cons q fs ih =>
      intro hne
      obtain ⟨k, v⟩ := q
      have hk : k ≠ k2 := hne (k, v) (List.mem_cons_self _ _)
      show (match jsLookup ((k2, w2) :: gs) k with
            | some w => ddiff (path ++ [.key k]) v w
            | none => [.deleted (path ++ [.key k]) v]) ++ ddiffFieldsL path fs ((k2, w2) :: gs)
          = (match jsLookup gs k with
            | some w => ddiff (path ++ [.key k]) v w
            | none => [.deleted (path ++ [.key k]) v]) ++ ddiffFieldsL path fs gs
      rw [jsLookup_cons_ne (Ne.symm hk), ih (fun p hp => hne p (List.mem_cons_of_mem _ hp))]

/-! ### The diff of a value with itself is empty -/

mutual

theorem ddiff_self : ∀ (path : List PathSeg) (v : JsonValue),
    canonB v = true → ddiff path v v = []
  | path, .null => fun _ => rfl
  | path, .bool b => by
      intro _
      simp [ddiff]
  | path, .num n => by
      intro _
      simp [ddiff]
  | path, .str s => by
      intro _
      simp [ddiff]
  | path, .arr l => by
      intro hc
      show arrayExtras path l l ++ ddiffZip path 0 l l = []
      rw [arrayExtras_self, ddiffZip_self path 0 l (show canonList l = true from hc)]
      rfl
  | path, .obj fs => by
      intro hc
      have hc2 : keysStrictB (fs.map Prod.fst) = true ∧ canonFields fs = true := by
        have hh : (keysStrictB (fs.map Prod.fst) && canonFields fs) = true := hc
        rw [Bool.and_eq_true] at hh
        exact hh
      have hnd : (fs.map Prod.fst).Nodup := keysStrict_nodup _ hc2.1
      show ddiffFieldsL path fs fs ++ addedFields path fs fs = []
      rw [ddiffFieldsL_nilOf path fs fs
        (fun p hp => jsLookup_of_nodup_mem hnd hp)
        (fun p hp => (canonFields_iff_mem fs).mp hc2.2 p hp)]
      rw [addedFields_eq_nil_iff.mpr
        (fun q hq => jsLookup_isSome_iff.mpr (List.mem_map_of_mem Prod.fst hq))]
      rfl

theorem ddiffFieldsL_nilOf : ∀ (path : List PathSeg) (fs gs : List (String × JsonValue)),
    (∀ p ∈ fs, jsLookup gs p.1 = some p.2) →
    (∀ p ∈ fs, canonB p.2 = true) → ddiffFieldsL path fs gs = []
  | path, [], gs => fun _ _ => rfl
  | path, (k, v) :: fs, gs => by
      intro hlk hcn
      show (match jsLookup gs k with
            | some w => ddiff (path ++ [.key k]) v w
            | none => [.deleted (path ++ [.key k]) v]) ++ ddiffFieldsL path fs gs = []
      rw [hlk (k, v) (List.mem_cons_self _ _)]
      show ddiff (path ++ [.key k]) v v ++ ddiffFieldsL path fs gs = []
      rw [ddiff_self _ v (hcn (k, v) (List.mem_cons_self _ _)),
        ddiffFieldsL_nilOf path fs gs
          (fun p hp => hlk p (List.mem_cons_of_mem _ hp))
          (fun p hp => hcn p (List.mem_cons_of_mem _ hp))]
      rfl

theorem ddiffZip_self : ∀ (path : List PathSeg) (i : Nat) (l : List JsonValue),
    canonList l = true → ddiffZip path i l l = []
  | path, i, [] => fun _ => rfl
  | path, i, v :: vs => by
      intro hc
      have hc2 : canonB v = true ∧ canonList vs = true := by
        have hh : (canonB v && canonList vs) = true := hc
        rw [Bool.and_eq_true] at hh
        exact hh
      show ddiff (path ++ [.idx i]) v v ++ ddiffZip path (i + 1) vs vs = []
      rw [ddiff_self _ v hc2.1, ddiffZip_self path (i + 1) vs hc2.2]
      rfl

end

/-! ### An empty diff between canonical values forces equality -/

mutual

theorem ddempty : ∀ (path : List PathSeg) (x y : JsonValue),
    canonB x = true → canonB y = true → ddiff path x y = [] → x = y
  | path, .null, y => by
      intro hx hy h
      cases y with
      | null => rfl
      | bool c => exact absurd h (List.cons_ne_nil _ _)
      | num m => exact absurd h (List.cons_ne_nil _ _)
      | str t => exact absurd h (List.cons_ne_nil _ _)
      | arr ys => exact absurd h (List.cons_ne_nil _ _)
      | obj gs => exact absurd h (List.cons_ne_nil _ _)
  | path, .bool b, y => by
      intro hx hy h
      cases y with
      | bool c =>
          by_cases hbc : b = c
          · rw [hbc]
          · exfalso
            have h2 : (if b = c then ([] : List DiffEntry)
                else [.edited path (.bool b) (.bool c)]) = [] := h
            rw [if_neg hbc] at h2
            exact absurd h2 (List.cons_ne_nil _ _)
      | null => exact absurd h (List.cons_ne_nil _ _)
      | num m => exact absurd h (List.cons_ne_nil _ _)
      | str t => exact absurd h (List.cons_ne_nil _ _)
      | arr ys => exact absurd h (List.cons_ne_nil _ _)
      | obj gs => exact absurd h (List.cons_ne_nil _ _)
  | path, .num n, y => by
      intro hx hy h
      cases y with
      | num m =>
          by_cases hnm : n = m
          · rw [hnm]
          · exfalso
            have h2 : (if n = m then ([] : List DiffEntry)
                else [.edited path (.num n) (.num m)]) = [] := h
            rw [if_neg hnm] at h2
            exact absurd h2 (List.cons_ne_nil _ _)
      | null => exact absurd h (List.cons_ne_nil _ _)
      | bool c => exact absurd h (List.cons_ne_nil _ _)
      | str t => exact absurd h (List.cons_ne_nil _ _)
      | arr ys => exact absurd h (List.cons_ne_nil _ _)
      | obj gs => exact absurd h (List.cons_ne_nil _ _)
  | path, .str s, y => by
      intro hx hy h
      cases y with
      | str t =>
          by_cases hst : s = t
          · rw [hst]
          · exfalso
            have h2 : (if s = t then ([] : List DiffEntry)
                else [.edited path (.str s) (.str t)]) = [] := h
            rw [if_neg hst] at h2
            exact absurd h2 (List.cons_ne_nil _ _)
      | null => exact absurd h (List.cons_ne_nil _ _)
      | bool c => exact absurd h (List.cons_ne_nil _ _)
      | num m => exact absurd h (List.cons_ne_nil _ _)
      | arr ys => exact absurd h (List.cons_ne_nil _ _)
      | obj gs => exact absurd h (List.cons_ne_nil _ _)
  | path, .arr xs, y => by
      intro hx hy h
      cases y with
      | arr ys =>
          have h2 : arrayExtras path xs ys ++ ddiffZip path 0 xs ys = [] := h
          rw [List.append_eq_nil] at h2
          have hlen := arrayExtras_nil_length h2.1
          have := ddempty_zip path 0 xs ys hlen (show canonList xs = true from hx)
            (show canonList ys = true from hy) h2.2
          rw [this]
      | null => exact absurd h (List.cons_ne_nil _ _)
      | bool c => exact absurd h (List.cons_ne_nil _ _)
      | num m => exact absurd h (List.cons_ne_nil _ _)
      | str t => exact absurd h (List.cons_ne_nil _ _)
      | obj gs => exact absurd h (List.cons_ne_nil _ _)
  | path, .obj fs, y => by
      intro hx hy h
      cases y with
      | obj gs =>
          have h2 : ddiffFieldsL path fs gs ++ addedFields path fs gs = [] := h
          rw [List.append_eq_nil] at h2
          have hx2 : keysStrictB (fs.map Prod.fst) = true ∧ canonFields fs = true := by
            have hh : (keysStrictB (fs.map Prod.fst) && canonFields fs) = true := hx
            rw [Bool.and_eq_true] at hh
            exact hh
          have hy2 : keysStrictB (gs.map Prod.fst) = true ∧ canonFields gs = true := by
            have hh : (keysStrictB (gs.map Prod.fst) && canonFields gs) = true := hy
            rw [Bool.and_eq_true] at hh
            exact hh
          have := ddempty_fields path fs gs hx2.1 hy2.1 hx2.2 hy2.2 h2.1 h2.2
          rw [this]
      | null => exact absurd h (List.cons_ne_nil _ _)
      | bool c => exact absurd h (List.cons_ne_nil _ _)
      | num m => exact absurd h (List.cons_ne_nil _ _)
      | str t => exact absurd h (List.cons_ne_nil _ _)
      | arr ys => exact absurd h (List.cons_ne_nil _ _)

theorem ddempty_zip : ∀ (path : List PathSeg) (i : Nat) (xs ys : List JsonValue),
    xs.length = ys.length → canonList xs = true → canonList ys = true →
    ddiffZip path i xs ys = [] → xs = ys
  | path, i, [], [] => fun _ _ _ _ => rfl
  | path, i, [], y :: ys => by
      intro hlen _ _ _
      simp at hlen
  | path, i, x :: xs, [] => by
      intro hlen _ _ _
      simp at hlen
  | path, i, x :: xs, y :: ys => by
      intro hlen hcx hcy h
      have hx2 : canonB x = true ∧ canonList xs = true := by
        have hh : (canonB x && canonList xs) = true := hcx
        rw [Bool.and_eq_true] at hh
        exact hh
      have hy2 : canonB y = true ∧ canonList ys = true := by
        have hh : (canonB y && canonList ys) = true := hcy
        rw [Bool.and_eq_true] at hh
        exact hh
      have h2 : ddiff (path ++ [.idx i]) x y ++ ddiffZip path (i + 1) xs ys = [] := h
      rw [List.append_eq_nil] at h2
      have he := ddempty (path ++ [.idx i]) x y hx2.1 hy2.1 h2.1
      have ht := ddempty_zip path (i + 1) xs ys (by simpa using hlen) hx2.2 hy2.2 h2.2
      rw [he, ht]

theorem ddempty_fields : ∀ (path : List PathSeg) (fs gs : List (String × JsonValue)),
    keysStrictB (fs.map Prod.fst) = true → keysStrictB (gs.map Prod.fst) = true →
    canonFields fs = true → canonFields gs = true →
    ddiffFieldsL path fs gs = [] → addedFields path fs gs = [] → fs = gs
  | path, [], gs => by
      intro _ _ _ _ _ hA
      cases gs with
      | nil => rfl
      | cons q qs =>
          exfalso
          rw [addedFields_eq_nil_iff] at hA
          have := hA q (List.mem_cons_self _ _)
          rw [show jsLookup [] q.1 = none from rfl] at this
          exact absurd this (by decide)
  | path, (k, v) :: fs, gs => by
      intro hsf hsg hcf hcg hF hA
      have hsf2 : keysStrictB (k :: fs.map Prod.fst) = true := by simpa using hsf
      have hcf2 : canonB v = true ∧ canonFields fs = true := by
        have hh : (canonB v && canonFields fs) = true := hcf
        rw [Bool.and_eq_true] at hh
        exact hh
      have hF2 : (match jsLookup gs k with
          | some w => ddiff (path ++ [.key k]) v w
          | none => [.deleted (path ++ [.key k]) v]) ++ ddiffFieldsL path fs gs = [] := hF
      rw [List.append_eq_nil] at hF2
      obtain ⟨hHead, hTail⟩ := hF2
      cases hLk : jsLookup gs k with
      | none =>
          rw [hLk] at hHead
          exact absurd hHead (List.cons_ne_nil _ _)
      | some w =>
          rw [hLk] at hHead
          have hHead2 : ddiff (path ++ [.key k]) v w = [] := hHead
          cases gs with
          | nil =>
              exfalso
              rw [show jsLookup [] k = none from rfl] at hLk
              exact absurd hLk (by simp)
          | cons q qs =>
              obtain ⟨k2, w2⟩ := q
              have hsg2 : keysStrictB (k2 :: qs.map Prod.fst) = true := by simpa using hsg
              have hcg2 : canonB w2 = true ∧ canonFields qs = true := by
                have hh : (canonB w2 && canonFields qs) = true := hcg
                rw [Bool.and_eq_true] at hh
                exact hh
              rw [addedFields_eq_nil_iff] at hA
              have hkmem : k ∈ (k2 :: qs.map Prod.fst) := by
                have h1 := jsLookup_mem hLk
                have h2 := List.mem_map_of_mem Prod.fst h1
                simpa using h2
              have hk2mem : k2 ∈ (k :: fs.map Prod.fst) := by
                have h2 := hA (k2, w2) (List.mem_cons_self _ _)
                have h3 := jsLookup_isSome_iff.mp h2
                simpa using h3
              have hkk2 : k = k2 := by
                rcases List.mem_cons.mp hkmem with h1 | hmem1
                · exact h1
                · rcases List.mem_cons.mp hk2mem with h1 | hmem2
                  · exact h1.symm
                  · exfalso
                    have l1 : codeUnitCmp k2 k = .lt := keysStrict_head_lt hsg2 k hmem1
                    have l2 : codeUnitCmp k k2 = .lt := keysStrict_head_lt hsf2 k2 hmem2
                    have l3 := cuLt_trans l1 l2
                    rw [codeUnitCmp_eq_iff.mpr rfl] at l3
                    exact absurd l3 (by decide)
              subst hkk2
              rw [jsLookup_cons_self] at hLk
              have hw : w2 = w := by
                injection hLk
              subst hw
              have hv : v = w2 := ddempty (path ++ [.key k]) v w2 hcf2.1 hcg2.1 hHead2
              have hfsne : ∀ p ∈ fs, p.1 ≠ k := by
                intro p hp he
                have hlt := keysStrict_head_lt hsf2 p.1 (List.mem_map_of_mem Prod.fst hp)
                rw [he, codeUnitCmp_eq_iff.mpr rfl] at hlt
                exact absurd hlt (by decide)
              have hqsne : ∀ q ∈ qs, q.1 ≠ k := by
                intro q hq he
                have hlt := keysStrict_head_lt hsg2 q.1 (List.mem_map_of_mem Prod.fst hq)
                rw [he, codeUnitCmp_eq_iff.mpr rfl] at hlt
                exact absurd hlt (by decide)
              have hTail2 : ddiffFieldsL path fs qs = [] := by
                rw [ddiffFieldsL_congr_gs path fs k w2 qs hfsne] at hTail
                exact hTail
              have hA2 : addedFields path fs qs = [] := by
                rw [addedFields_eq_nil_iff]
                intro q hq
                have hSome := hA q (List.mem_cons_of_mem _ hq)
                rw [jsLookup_cons_ne (fun he => hqsne q hq he.symm)] at hSome
                exact hSome
              have hsf3 : keysStrictB (fs.map Prod.fst) = true := keysStrictB_tail hsf2
              have hsg3 : keysStrictB (qs.map Prod.fst) = true := keysStrictB_tail hsg2
              have htails := ddempty_fields path fs qs hsf3 hsg3 hcf2.2 hcg2.2 hTail2 hA2
              rw [hv, htails]

end

/-! ### Structural equality ignoring key order and array order -/

mutual

/-- Structural equality of JSON values ignoring object-key order and
array-element order: scalars must match exactly; arrays (after relating
elements pointwise) may be permuted; objects (after relating same-keyed
values pointwise) may have their key/value pairs permuted. -/
inductive JEquiv : JsonValue → JsonValue → Prop where
  | null : JEquiv .null .null
  | bool (b : Bool) : JEquiv (.bool b) (.bool b)
  | num (n : Int) : JEquiv (.num n) (.num n)
  | str (s : String) : JEquiv (.str s) (.str s)
  | arr {xs ys₀ ys : List JsonValue} :
      JEquivList xs ys₀ → ys₀.Perm ys → JEquiv (.arr xs) (.arr ys)
  | obj {fs gs₀ gs : List (String × JsonValue)} :
      JEquivFields fs gs₀ → gs₀.Perm gs → JEquiv (.obj fs) (.obj gs)

/-- Pointwise `JEquiv` on lists. -/
inductive JEquivList : List JsonValue → List JsonValue → Prop where
  | nil : JEquivList [] []
  | cons {x y : JsonValue} {xs ys : List JsonValue} :
      JEquiv x y → JEquivList xs ys → JEquivList (x :: xs) (y :: ys)

/-- Pointwise `JEquiv` on key/value pairs with equal keys. -/
inductive JEquivFields : List (String × JsonValue) → List (String × JsonValue) → Prop where
  | nil : JEquivFields [] []
  | cons {k : String} {v w : JsonValue} {fs gs : List (String × JsonValue)} :
      JEquiv v w → JEquivFields fs gs → JEquivFields ((k, v) :: fs) ((k, w) :: gs)

end

mutual

theorem norm_jequiv : ∀ (a b : JsonValue),
    normalizeSchema a = normalizeSchema b → JEquiv a b
  | .null, b => by
      intro h
      cases b with
      | null => exact .null
      | bool c => exact absurd h (by simp [normalizeSchema])
      | num m => exact absurd h (by simp [normalizeSchema])
      | str t => exact absurd h (by simp [normalizeSchema])
      | arr ys => exact absurd h (by simp [normalizeSchema])
      | obj gs => exact absurd h (by simp [normalizeSchema])
  | .bool b0, b => by
      intro h
      cases b with
      | bool c =>
          have : b0 = c := by simpa [normalizeSchema] using h
          rw [this]
          exact .bool c
      | null => exact absurd h (by simp [normalizeSchema])
      | num m => exact absurd h (by simp [normalizeSchema])
      | str t => exact absurd h (by simp [normalizeSchema])
      | arr ys => exact absurd h (by simp [normalizeSchema])
      | obj gs => exact absurd h (by simp [normalizeSchema])
  | .num n, b => by
      intro h
      cases b with
      | num m =>
          have : n = m := by simpa [normalizeSchema] using h
          rw [this]
          exact .num m
      | null => exact absurd h (by simp [normalizeSchema])
      | bool c => exact absurd h (by simp [normalizeSchema])
      | str t => exact absurd h (by simp [normalizeSchema])
      | arr ys => exact absurd h (by simp [normalizeSchema])
      | obj gs => exact absurd h (by simp [normalizeSchema])
  | .str s, b => by
      intro h
      cases b with
      | str t =>
          have : s = t := by simpa [normalizeSchema] using h
          rw [this]
          exact .str t
      | null => exact absurd h (by simp [normalizeSchema])
      | bool c => exact absurd h (by simp [normalizeSchema])
      | num m => exact absurd h (by simp [normalizeSchema])
      | arr ys => exact absurd h (by simp [normalizeSchema])
      | obj gs => exact absurd h (by simp [normalizeSchema])
  | .arr xs, b => by
      intro h
      cases b with
      | arr ys =>
          have h2 : List.insertionSort rv (normalizeList xs)
              = List.insertionSort rv (normalizeList ys) := by
            have h3 : JsonValue.arr (List.insertionSort rv (normalizeList xs))
                = JsonValue.arr (List.insertionSort rv (normalizeList ys)) := h
            injection h3
          have hperm : (xs.map normalizeSchema).Perm (ys.map normalizeSchema) := by
            rw [← normalizeList_eq_map, ← normalizeList_eq_map]
            have p1 := (List.perm_insertionSort rv (normalizeList xs)).symm
            rw [h2] at p1
            exact p1.trans (List.perm_insertionSort rv (normalizeList ys))
          obtain ⟨ys₀, hf, hp⟩ := norm_jequiv_list_lift xs ys hperm
          exact .arr hf hp
      | null => exact absurd h (by simp [normalizeSchema])
      | bool c => exact absurd h (by simp [normalizeSchema])
      | num m => exact absurd h (by simp [normalizeSchema])
      | str t => exact absurd h (by simp [normalizeSchema])
      | obj gs => exact absurd h (by simp [normalizeSchema])
  | .obj fs, b => by
      intro h
      cases b with
      | obj gs =>
          have h2 : List.insertionSort rk (normalizeFields fs)
              = List.insertionSort rk (normalizeFields gs) := by
            have h3 : JsonValue.obj (List.insertionSort rk (normalizeFields fs))
                = JsonValue.obj (List.insertionSort rk (normalizeFields gs)) := h
            injection h3
          have hperm : (fs.map fun p => (p.1, normalizeSchema p.2)).Perm
              (gs.map fun p => (p.1, normalizeSchema p.2)) := by
            rw [← normalizeFields_eq_map, ← normalizeFields_eq_map]
            have p1 := (List.perm_insertionSort rk (normalizeFields fs)).symm
            rw [h2] at p1
            exact p1.trans (List.perm_insertionSort rk (normalizeFields gs))
          obtain ⟨gs₀, hf, hp⟩ := norm_jequiv_fields_lift fs gs hperm
          exact .obj hf hp
      | null => exact absurd h (by simp [normalizeSchema])
      | bool c => exact absurd h (by simp [normalizeSchema])
      | num m => exact absurd h (by simp [normalizeSchema])
      | str t => exact absurd h (by simp [normalizeSchema])
      | arr ys => exact absurd h (by simp [normalizeSchema])

theorem norm_jequiv_list_lift : ∀ (xs ys : List JsonValue),
    (xs.map normalizeSchema).Perm (ys.map normalizeSchema) →
    ∃ ys₀, JEquivList xs ys₀ ∧ ys₀.Perm ys
  | [], ys => by
      intro hperm
      have h1 : ys.map normalizeSchema = [] := by
        have := hperm.symm
        exact this.eq_nil
      rw [List.map_eq_nil_iff] at h1
      rw [h1]
      exact ⟨[], .nil, List.Perm.refl []⟩
  | x :: xs, ys => by
      intro hperm
      have hmem : normalizeSchema x ∈ ys.map normalizeSchema := by
        apply hperm.subset
        show normalizeSchema x ∈ (x :: xs).map normalizeSchema
        rw [List.map_cons]
        exact List.mem_cons_self _ _
      rw [List.mem_map] at hmem
      obtain ⟨y, hy, hNy⟩ := hmem
      obtain ⟨ys₁, ys₂, rfl⟩ := List.append_of_mem hy
      have e1 : (ys₁ ++ y :: ys₂).map normalizeSchema
          = ys₁.map normalizeSchema ++ normalizeSchema y :: ys₂.map normalizeSchema := by
        simp
      have h3 : ((x :: xs).map normalizeSchema).Perm
          (normalizeSchema y :: (ys₁.map normalizeSchema ++ ys₂.map normalizeSchema)) := by
        refine hperm.trans ?_
        rw [e1]
        exact List.perm_middle
      rw [List.map_cons, hNy] at h3
      have h4 := h3.cons_inv
      have h5 : (xs.map normalizeSchema).Perm ((ys₁ ++ ys₂).map normalizeSchema) := by
        rw [List.map_append]
        exact h4
      obtain ⟨zs₀, hf, hp⟩ := norm_jequiv_list_lift xs (ys₁ ++ ys₂) h5
      refine ⟨y :: zs₀, .cons (norm_jequiv x y hNy.symm) hf, ?_⟩
      refine (hp.cons y).trans ?_
      exact List.perm_middle.symm

theorem norm_jequiv_fields_lift : ∀ (fs gs : List (String × JsonValue)),
    (fs.map fun p => (p.1, normalizeSchema p.2)).Perm
      (gs.map fun p => (p.1, normalizeSchema p.2)) →
    ∃ gs₀, JEquivFields fs gs₀ ∧ gs₀.Perm gs
  | [], gs => by
      intro hperm
      have h1 : (gs.map fun p => (p.1, normalizeSchema p.2)) = [] := hperm.symm.eq_nil
      rw [List.map_eq_nil_iff] at h1
      rw [h1]
      exact ⟨[], .nil, List.Perm.refl []⟩
  | (k, v) :: fs, gs => by
      intro hperm
      have hmem : (k, normalizeSchema v) ∈ gs.map fun p => (p.1, normalizeSchema p.2) := by
        apply hperm.subset
        show (k, normalizeSchema v) ∈ ((k, v) :: fs).map fun p => (p.1, normalizeSchema p.2)
        rw [List.map_cons]
        exact List.mem_cons_self _ _
      rw [List.mem_map] at hmem
      obtain ⟨q, hq, hFq⟩ := hmem
      obtain ⟨k2, w⟩ := q
      have hk2 : k2 = k ∧ normalizeSchema w = normalizeSchema v := by
        have := hFq
        rw [Prod.mk.injEq] at this
        exact this
      obtain ⟨rfl, hNw⟩ := hk2
      obtain ⟨gs₁, gs₂, rfl⟩ := List.append_of_mem hq
      have e1 : ((gs₁ ++ (k2, w) :: gs₂).map fun p => (p.1, normalizeSchema p.2))
          = (gs₁.map fun p => (p.1, normalizeSchema p.2))
            ++ (k2, normalizeSchema w) :: (gs₂.map fun p => (p.1, normalizeSchema p.2)) := by
        simp
      have h3 : (((k2, v) :: fs).map fun p => (p.1, normalizeSchema p.2)).Perm
          ((k2, normalizeSchema w) ::
            ((gs₁.map fun p => (p.1, normalizeSchema p.2))
              ++ (gs₂.map fun p => (p.1, normalizeSchema p.2)))) := by
        refine hperm.trans ?_
        rw [e1]
        exact List.perm_middle
      rw [List.map_cons, hNw] at h3
      have h4 := h3.cons_inv
      have h5 : (fs.map fun p => (p.1, normalizeSchema p.2)).Perm
          ((gs₁ ++ gs₂).map fun p => (p.1, normalizeSchema p.2)) := by
        rw [List.map_append]
        exact h4
      obtain ⟨zs₀, hf, hp⟩ := norm_jequiv_fields_lift fs (gs₁ ++ gs₂) h5
      refine ⟨(k2, w) :: zs₀, .cons (norm_jequiv v w hNw.symm) hf, ?_⟩
      refine (hp.cons (k2, w)).trans ?_
      exact List.perm_middle.symm

end

/-- C2 counterexample: the original two-way claim — the structural diff
of the two canonical forms is empty exactly when the values are
structurally equal ignoring key and array order — fails in the
equivalence-to-empty direction. The arrays `["e\u0301", "\u00E9"]` and
`["\u00E9", "e\u0301"]` are permutations of each other (so structurally
equal up to order), but the `localeCompare` comparator ties the two
canonically equivalent strings, the stable sort leaves each array in
its input order, and the diff of the canonical forms reports two edits. -/
theorem C2_counterexample :
    ¬ (∀ a b : JsonValue, wfJ a = true → wfJ b = true →
        (ddiff [] (normalizeSchema a) (normalizeSchema b) = [] ↔ JEquiv a b)) := by
  intro hAll
  have hEquiv : JEquiv (.arr [.str "e\u0301", .str "\u00E9"])
      (.arr [.str "\u00E9", .str "e\u0301"]) :=
    .arr (.cons (.str "e\u0301") (.cons (.str "\u00E9") .nil)) (List.Perm.swap _ _ _)
  have hEmpty := (hAll (.arr [.str "e\u0301", .str "\u00E9"])
    (.arr [.str "\u00E9", .str "e\u0301"]) (by decide) (by decide)).mpr hEquiv
  revert hEmpty
  decide

/-- C2 (amended): over well-formed JSON values (an object never repeats
a key, as is true of everything `JSON.parse` yields), if the structural
diff of the two canonical forms — `diff(canonicalize(a), canonicalize(b))`
as `compareSchemasOfType` computes it on normalized inputs — is the
empty list, then `a` and `b` are structurally equal ignoring object-key
order and array-element order. The converse of the original claim
fails: `localeCompare` ties distinct strings whose serialized forms are
canonically equivalent, so two arrays that are permutations of each
other can canonicalize to different element orders and diff non-empty. -/
theorem C2_diff_empty_implies_equiv : ∀ a b : JsonValue,
    wfJ a = true → wfJ b = true →
    ddiff [] (normalizeSchema a) (normalizeSchema b) = [] → JEquiv a b := by
  intro a b hwa hwb h
  apply norm_jequiv
  exact ddempty [] _ _ (norm_canon a hwa) (norm_canon b hwb) h

/-- C2 witness: the implication applied to two concrete key-permuted
objects, whose canonical forms diff empty. -/
theorem C2_diff_empty_implies_equiv_witness :
    wfJ (.obj [("x", .num 1), ("y", .num 2)]) = true
    ∧ wfJ (.obj [("y", .num 2), ("x", .num 1)]) = true
    ∧ ddiff [] (normalizeSchema (.obj [("x", .num 1), ("y", .num 2)]))
        (normalizeSchema (.obj [("y", .num 2), ("x", .num 1)])) = []
    ∧ JEquiv (.obj [("x", .num 1), ("y", .num 2)])
        (.obj [("y", .num 2), ("x", .num 1)]) :=
  ⟨by decide, by decide, by decide,
    C2_diff_empty_implies_equiv (.obj [("x", .num 1), ("y", .num 2)])
      (.obj [("y", .num 2), ("x", .num 1)]) (by decide) (by decide) (by decide)⟩

/-! ### Type-key derivation (`getSchemaType`) -/

/-- JavaScript truthiness on JSON values: `null`, `false`, `0` and the
empty string are falsy. -/
def jsFalsy : JsonValue → Bool
  | .null => true
  | .bool false => true
  | .num n => n == 0
  | .str s => s == ""
  | _ => false

/-- JavaScript property read `schema[k]`: objects look the key up,
every other JSON value has no such property. -/
def jsIndex (schema : JsonValue) (k : String) : Option JsonValue :=
  match schema with
  | .obj fs => jsLookup fs k
  | _ => none

mutual

/-- JavaScript `String(v)` on JSON values: `"null"`, `"true"`/`"false"`,
decimal numbers, strings verbatim, arrays joined by `","` with `null`
elements rendered empty (Array.prototype.toString), objects as
`"[object Object]"`. -/
def jsToString : JsonValue → String
  | .null => "null"
  | .bool true => "true"
  | .bool false => "false"
  | .num n => String.mk (intChars n)
  | .str s => s
  | .arr l => String.mk (jsJoinComma l)
  | .obj _ => "[object Object]"

/-- The `Array.prototype.join(",")` character rendering (a `null` element
contributes the empty string). -/
def jsJoinComma : List JsonValue → List Char
  | [] => []
  | [.null] => []
  | [v] => (jsToString v).data
  | .null :: v2 :: vs => ',' :: jsJoinComma (v2 :: vs)
  | v :: v2 :: vs => (jsToString v).data ++ ',' :: jsJoinComma (v2 :: vs)

end

/-- The `Array.prototype.join(", ")` character rendering (a `null` element
contributes the empty string). -/
def jsJoinCommaSpace : List JsonValue → List Char
  | [] => []
  | [.null] => []
  | [v] => (jsToString v).data
  | .null :: v2 :: vs => ',' :: ' ' :: jsJoinCommaSpace (v2 :: vs)
  | v :: v2 :: vs => (jsToString v).data ++ ',' :: ' ' :: jsJoinCommaSpace (v2 :: vs)

/-- The default (comparator-less) `Array.prototype.sort` relation on
JSON values: code-unit comparison of their `String(·)` conversions. -/
def rj (a b : JsonValue) : Prop :=
  codeUnitCmp (jsToString a) (jsToString b) ≠ Ordering.gt

instance : DecidableRel rj := fun a b => by
  unfold rj
  infer_instance

/-- The same default-sort relation on plain strings. -/
def rs (a b : String) : Prop := codeUnitCmp a b ≠ Ordering.gt

instance : DecidableRel rs := fun a b => by
  unfold rs
  infer_instance

theorem rj_total : ∀ a b, rj a b ∨ rj b a := by
  intro a b
  unfold rj codeUnitCmp
  rw [lexCmpNat_swap]
  cases hE : lexCmpNat (utf16OfStr (jsToString b)) (utf16OfStr (jsToString a)) <;>
    simp [Ordering.swap]

instance : IsTotal JsonValue rj := ⟨rj_total⟩

instance : IsTrans JsonValue rj :=
  ⟨fun _ _ _ h1 h2 => lexCmpNat_le_trans _ _ _ h1 h2⟩

theorem rs_total : ∀ a b, rs a b ∨ rs b a := by
  intro a b
  unfold rs codeUnitCmp
  rw [lexCmpNat_swap]
  cases hE : lexCmpNat (utf16OfStr b) (utf16OfStr a) <;> simp [Ordering.swap]

instance : IsTotal String rs := ⟨rs_total⟩

instance : IsTrans String rs :=
  ⟨fun _ _ _ h1 h2 => lexCmpNat_le_trans _ _ _ h1 h2⟩

instance : IsAntisymm String rs := by
  constructor
  intro a b h1 h2
  unfold rs at h1 h2
  rw [show codeUnitCmp b a = (codeUnitCmp a b).swap from lexCmpNat_swap _ _] at h2
  apply codeUnitCmp_eq_iff.mp
  cases hE : codeUnitCmp a b with
  | lt =>
      exfalso
      rw [hE] at h2
      exact absurd rfl h2
  | eq => rfl
  | gt => exact absurd hE h1

/-- Function `getSchemaType` from `schema-diff.ts`: a falsy schema gives
`"unknown"`; a string `@type` is returned as is; an array `@type` is
default-sorted and joined with `", "`; an object `@type` is
JSON-stringified; anything else (no `@type`, or a non-object scalar
there) gives `"unknown"`. -/
def getSchemaType (schema : JsonValue) : String :=
  if jsFalsy schema then "unknown"
  else
    match jsIndex schema "@type" with
    | some (.str s) => s
    | some (.arr l) => String.mk (jsJoinCommaSpace (List.insertionSort rj l))
    | some (.obj fs) => jsonStringify (.obj fs)
    | _ => "unknown"

/-- Comma-space join of a list of strings (the shape `getSchemaType`
produces for an array-valued `@type` whose entries are strings). -/
def joinStrs : List String → String
  | [] => ""
  | [s] => s
  | s :: s2 :: t => s ++ ", " ++ joinStrs (s2 :: t)

theorem jsJoinCommaSpace_map_str :
    ∀ l : List String, String.mk (jsJoinCommaSpace (l.map .str)) = joinStrs l
  | [] => rfl
  | [s] => by
      show String.mk (jsToString (.str s)).data = s
      show String.mk s.data = s
      cases s
      rfl
  | s :: s2 :: t => by
      show String.mk ((jsToString (.str s)).data ++ ',' :: ' '
          :: jsJoinCommaSpace ((s2 :: t).map .str)) = s ++ ", " ++ joinStrs (s2 :: t)
      have ih := jsJoinCommaSpace_map_str (s2 :: t)
      apply string_ext
      show s.data ++ ',' :: ' ' :: jsJoinCommaSpace ((s2 :: t).map .str)
        = (s ++ ", " ++ joinStrs (s2 :: t)).data
      rw [String.data_append, String.data_append]
      have hdata : (joinStrs (s2 :: t)).data = jsJoinCommaSpace ((s2 :: t).map .str) := by
        rw [← ih]
      rw [hdata]
      simp

theorem sort_map_str (ss : List String) :
    List.insertionSort rj (ss.map .str) = (List.insertionSort rs ss).map .str := by
  symm
  apply List.map_insertionSort
  intro a _ b _
  exact Iff.rfl

/-- C5: type-key derivation is a pure function of the `@type` value: a
string `@type` maps to itself; an array of strings maps to the
comma-space join of its sorted entries, identically for every
permutation of the entries; an absent `@type` maps to `"unknown"`. -/
theorem C5_type_key_derivation :
    (∀ (fs : List (String × JsonValue)) (s : String),
        jsLookup fs "@type" = some (.str s) → getSchemaType (.obj fs) = s)
    ∧ (∀ (fs : List (String × JsonValue)) (ss : List String),
        jsLookup fs "@type" = some (.arr (ss.map .str)) →
        getSchemaType (.obj fs) = joinStrs (List.insertionSort rs ss))
    ∧ (∀ ss tt : List String, ss.Perm tt →
        List.insertionSort rs ss = List.insertionSort rs tt)
    ∧ (∀ fs : List (String × JsonValue),
        jsLookup fs "@type" = none → getSchemaType (.obj fs) = "unknown") := by
  refine ⟨?_, ?_, ?_, ?_⟩
  · intro fs s h
    unfold getSchemaType
    rw [if_neg (by simp [jsFalsy])]
    rw [show jsIndex (.obj fs) "@type" = jsLookup fs "@type" from rfl, h]
  · intro fs ss h
    unfold getSchemaType
    rw [if_neg (by simp [jsFalsy])]
    rw [show jsIndex (.obj fs) "@type" = jsLookup fs "@type" from rfl, h]
    show String.mk (jsJoinCommaSpace (List.insertionSort rj (ss.map .str)))
      = joinStrs (List.insertionSort rs ss)
    rw [sort_map_str, jsJoinCommaSpace_map_str]
  · intro ss tt hperm
    apply List.eq_of_perm_of_sorted (r := rs)
    · exact (List.perm_insertionSort rs ss).trans
        (hperm.trans (List.perm_insertionSort rs tt).symm)
    · exact List.sorted_insertionSort rs ss
    · exact List.sorted_insertionSort rs tt
  · intro fs h
    unfold getSchemaType
    rw [if_neg (by simp [jsFalsy])]
    rw [show jsIndex (.obj fs) "@type" = jsLookup fs "@type" from rfl, h]

/-- C5 witness: the array clause applied to `@type: ["Product","Book"]`,
whose key is the sorted comma-space join `"Book, Product"`. -/
theorem C5_type_key_derivation_witness :
    (jsLookup [("@type", JsonValue.arr [.str "Product", .str "Book"])] "@type"
        = some (JsonValue.arr (["Product", "Book"].map JsonValue.str)))
    ∧ getSchemaType (.obj [("@type", JsonValue.arr [.str "Product", .str "Book"])])
        = joinStrs (List.insertionSort rs ["Product", "Book"])
    ∧ joinStrs (List.insertionSort rs ["Product", "Book"]) = "Book, Product" :=
  ⟨by decide, C5_type_key_derivation.2.1 _ _ (by decide), by decide⟩

/-! ### JSON parsing (model of `JSON.parse`) and schema extraction -/

/-- Decidable digit test. -/
def isDigitCh (c : Char) : Bool := 48 ≤ c.toNat && c.toNat ≤ 57

/-- Hexadecimal digit test (both cases). -/
def isHexCh (c : Char) : Bool :=
  isDigitCh c || (97 ≤ c.toNat && c.toNat ≤ 102) || (65 ≤ c.toNat && c.toNat ≤ 70)

/-- Skip JSON whitespace. -/
def skipWs : List Char → List Char
  | c :: cs =>
      if c = ' ' ∨ c = '\x09' ∨ c = '\x0a' ∨ c = '\x0d' then skipWs cs else c :: cs
  | [] => []

/-- Decode a single-character JSON escape. -/
def escDecode (d : Char) : Option Char :=
  if d = '"' then some '"'
  else if d = '\\' then some '\\'
  else if d = '/' then some '/'
  else if d = 'b' then some '\x08'
  else if d = 't' then some '\x09'
  else if d = 'n' then some '\x0a'
  else if d = 'f' then some '\x0c'
  else if d = 'r' then some '\x0d'
  else none

/-- Value of a hexadecimal digit character (either case). -/
def hexValAny (c : Char) : Nat :=
  if c.toNat ≤ 57 then c.toNat - 48
  else if c.toNat ≤ 70 then c.toNat - 55
  else c.toNat - 87

/-- Consume a run of decimal digits onto an accumulator. -/
def parseDigits : Nat → Nat → List Char → Nat × List Char
  | 0, acc, cs => (acc, cs)
  | f + 1, acc, cs =>
      match cs with
      | c :: r =>
          if isDigitCh c then parseDigits f (10 * acc + (c.toNat - 48)) r else (acc, c :: r)
      | [] => (acc, [])

/-- Parse an unsigned integer literal. The model's numbers are integers,
so a fraction or exponent makes the parse fail rather than produce an
unrepresentable value. -/
def parseNum (f : Nat) (cs : List Char) : Option (Nat × List Char) :=
  match cs with
  | c :: r =>
      if isDigitCh c then
        match parseDigits f (c.toNat - 48) r with
        | (n, r2) =>
            match r2 with
            | d :: _ => if d = '.' ∨ d = 'e' ∨ d = 'E' then none else some (n, r2)
            | [] => some (n, [])
      else none
  | [] => none

mutual

/-- Fuel-driven recursive-descent parser for JSON values (model of
`JSON.parse`; numbers restricted to integers). Returns the value and
the unconsumed rest. -/
def parseValue : Nat → List Char → Option (JsonValue × List Char)
  | 0, _ => none
  | f + 1, cs =>
      match skipWs cs with
      | 'n' :: 'u' :: 'l' :: 'l' :: r => some (.null, r)
      | 't' :: 'r' :: 'u' :: 'e' :: r => some (.bool true, r)
      | 'f' :: 'a' :: 'l' :: 's' :: 'e' :: r => some (.bool false, r)
      | '"' :: r =>
          match parseStrBody f r with
          | some (s, r2) => some (.str (String.mk s), r2)
          | none => none
      | '[' :: r =>
          match skipWs r with
          | ']' :: r2 => some (.arr [], r2)
          | r2 =>
              match parseElems f r2 with
              | some (l, r3) => some (.arr l, r3)
              | none => none
      | '\x7b' :: r =>
          match skipWs r with
          | '\x7d' :: r2 => some (.obj [], r2)
          | r2 =>
              match parseMembers f r2 with
              | some (fs, r3) => some (.obj fs, r3)
              | none => none
      | '-' :: r =>
          match parseNum f r with
          | some (n, r2) => some (.num (-(n : Int)), r2)
          | none => none
      | c :: r =>
          if isDigitCh c then
            match parseNum f (c :: r) with
            | some (n, r2) => some (.num (n : Int), r2)
            | none => none
          else none
      | [] => none

/-- Parse the body of a string literal after its opening quote. -/
def parseStrBody : Nat → List Char → Option (List Char × List Char)
  | 0, _ => none
  | f + 1, cs =>
      match cs with
      | '"' :: r => some ([], r)
      | '\\' :: r =>
          match r with
          | d :: r2 =>
              if d = 'u' then
                match r2 with
                | h1 :: h2 :: h3 :: h4 :: r3 =>
                    if isHexCh h1 && isHexCh h2 && isHexCh h3 && isHexCh h4 then
                      match parseStrBody f r3 with
                      | some (s, r4) =>
                          some (Char.ofNat (4096 * hexValAny h1 + 256 * hexValAny h2
                            + 16 * hexValAny h3 + hexValAny h4) :: s, r4)
                      | none => none
                    else none
                | _ => none
              else
                match escDecode d with
                | some c =>
                    match parseStrBody f r2 with
                    | some (s, r3) => some (c :: s, r3)
                    | none => none
                | none => none
          | [] => none
      | c :: r =>
          match parseStrBody f r with
          | some (s, r2) => some (c :: s, r2)
          | none => none
      | [] => none

/-- Parse the remaining elements of a non-empty array. -/
def parseElems : Nat → List Char → Option (List JsonValue × List Char)
  | 0, _ => none
  | f + 1, cs =>
      match parseValue f cs with
      | some (v, r) =>
          match skipWs r with
          | ',' :: r2 =>
              match parseElems f r2 with
              | some (l, r3) => some (v :: l, r3)
              | none => none
          | ']' :: r2 => some ([v], r2)
          | _ => none
      | none => none

/-- Parse the remaining members of a non-empty object. -/
def parseMembers : Nat → List Char → Option (List (String × JsonValue) × List Char)
  | 0, _ => none
  | f + 1, cs =>
      match skipWs cs with
      | '"' :: r =>
          match parseStrBody f r with
          | some (k, r2) =>
              match skipWs r2 with
              | ':' :: r3 =>
                  match parseValue f r3 with
                  | some (v, r4) =>
                      match skipWs r4 with
                      | ',' :: r5 =>
                          match parseMembers f r5 with
                          | some (fs, r6) => some ((String.mk k, v) :: fs, r6)
                          | none => none
                      | '\x7d' :: r5 => some ([(String.mk k, v)], r5)
                      | _ => none
                  | none => none
              | _ => none
          | none => none
      | _ => none

end

/-- Model of `JSON.parse` on a whole text: the parse must consume everything but
trailing whitespace. -/
def parseJson (text : String) : Option JsonValue :=
  match parseValue (3 * text.data.length + 3) text.data with
  | some (v, r) => if skipWs r = [] then some v else none
  | none => none

/-- A `<script>` element as the extraction sees it: its `type` attribute
(if any) and its text content (`$(element).html()`, the empty string for
an empty element). -/
structure ScriptBlock where
  typeAttr : Option String
  content : String
deriving DecidableEq

/-- The selector `script[type="application/ld+json"]`. -/
def isLdJsonBlock (b : ScriptBlock) : Bool := b.typeAttr == some "application/ld+json"

/-- The result record of `extractJsonLdSchemas`. -/
structure JsonLdSchema where
  url : String
  schemas : List JsonValue
  schemasByType : List (String × List JsonValue)

/-- The insertion by `groupSchemasByType` of one schema into the `Map`
(first-seen key order, appending to an existing bucket). -/
def addToGroup (m : List (String × List JsonValue)) (t : String) (s : JsonValue) :
    List (String × List JsonValue) :=
  if m.any (fun p => p.1 == t) then
    m.map (fun p => if p.1 == t then (p.1, p.2 ++ [s]) else p)
  else m ++ [(t, [s])]

/-- Function `groupSchemasByType` from `schema-diff.ts`: partition the schema
list into buckets keyed by `getSchemaType`, preserving first-seen key
order and arrival order within each bucket. -/
def groupSchemasByType (schemas : List JsonValue) : List (String × List JsonValue) :=
  schemas.foldl (fun m s => addToGroup m (getSchemaType s) s) []

/-- The diagnostic `console.warn` message for an unparseable block. -/
def parseWarning (url : String) : String :=
  "Warning: Failed to parse JSON-LD schema in " ++ url ++ ":"

/-- Processing of one selected block inside `extractJsonLdSchemas`:
an empty content string is skipped silently (falsy check); parseable
content contributes its value, with a top-level array spread flat; an
unparseable content contributes nothing but a warning naming the URL. -/
def extractStep (b : ScriptBlock) (url : String) : List JsonValue × List String :=
  if b.content == "" then ([], [])
  else
    match parseJson b.content with
    | some (.arr l) => (l, [])
    | some v => ([v], [])
    | none => ([], [parseWarning url])

/-- The `each` loop of `extractJsonLdSchemas` over the selected blocks,
collecting extracted schemas and emitted warnings in order. -/
def extractLoop (blocks : List ScriptBlock) (url : String) : List JsonValue × List String :=
  match blocks with
  | [] => ([], [])
  | b :: bs =>
      ((extractStep b url).1 ++ (extractLoop bs url).1,
       (extractStep b url).2 ++ (extractLoop bs url).2)

/-- Function `extractJsonLdSchemas` from `schema-diff.ts`, over the document's
script elements: select the JSON-LD-typed ones, parse each, then group;
returns the result record and the warnings emitted along the way. -/
def extractJsonLdSchemas (blocks : List ScriptBlock) (url : String) :
    JsonLdSchema × List String :=
  let res := extractLoop (blocks.filter isLdJsonBlock) url
  ({ url := url, schemas := res.1, schemasByType := groupSchemasByType res.1 }, res.2)

theorem extractLoop_append : ∀ (xs ys : List ScriptBlock) (url : String),
    extractLoop (xs ++ ys) url
      = ((extractLoop xs url).1 ++ (extractLoop ys url).1,
         (extractLoop xs url).2 ++ (extractLoop ys url).2)
  | [], ys, url => by simp [extractLoop]
  | b :: xs, ys, url => by
      show ((extractStep b url).1 ++ (extractLoop (xs ++ ys) url).1,
            (extractStep b url).2 ++ (extractLoop (xs ++ ys) url).2) = _
      rw [extractLoop_append xs ys url]
      show ((extractStep b url).1 ++ ((extractLoop xs url).1 ++ (extractLoop ys url).1),
            (extractStep b url).2 ++ ((extractLoop xs url).2 ++ (extractLoop ys url).2)) = _
      show _ = (((extractStep b url).1 ++ (extractLoop xs url).1) ++ (extractLoop ys url).1,
            ((extractStep b url).2 ++ (extractLoop xs url).2) ++ (extractLoop ys url).2)
      rw [List.append_assoc, List.append_assoc]

/-- C6: a selected structured-data block whose text fails to parse is
skipped — the extracted schema list over the whole document equals the
one with the bad block removed, so every other well-formed block is
still extracted and extraction never aborts — and exactly one warning,
whose text names the source URL, is emitted in its place. -/
theorem C6_malformed_block_skipped :
    ∀ (pre post : List ScriptBlock) (bad : ScriptBlock) (url : String),
      bad.typeAttr = some "application/ld+json" →
      bad.content ≠ "" →
      parseJson bad.content = none →
      (extractJsonLdSchemas (pre ++ bad :: post) url).1.schemas
          = (extractJsonLdSchemas (pre ++ post) url).1.schemas
      ∧ (extractJsonLdSchemas (pre ++ bad :: post) url).2
          = (extractJsonLdSchemas pre url).2
              ++ parseWarning url :: (extractJsonLdSchemas post url).2
      ∧ parseWarning url = "Warning: Failed to parse JSON-LD schema in " ++ url ++ ":" := by
  intro pre post bad url hattr hcontent hparse
  have hsel : isLdJsonBlock bad = true := by
    unfold isLdJsonBlock
    rw [hattr]
    rfl
  have hstep : extractStep bad url = ([], [parseWarning url]) := by
    unfold extractStep
    rw [if_neg (by simpa using hcontent), hparse]
  have hfilter : (pre ++ bad :: post).filter isLdJsonBlock
      = pre.filter isLdJsonBlock ++ bad :: post.filter isLdJsonBlock := by
    rw [List.filter_append, List.filter_cons_of_pos hsel]
  have hfilter2 : (pre ++ post).filter isLdJsonBlock
      = pre.filter isLdJsonBlock ++ post.filter isLdJsonBlock := List.filter_append pre post
  refine ⟨?_, ?_, rfl⟩
  · show (extractLoop ((pre ++ bad :: post).filter isLdJsonBlock) url).1
      = (extractLoop ((pre ++ post).filter isLdJsonBlock) url).1
    rw [hfilter, hfilter2, extractLoop_append, extractLoop_append]
    show (extractLoop (pre.filter isLdJsonBlock) url).1
        ++ (extractLoop (bad :: post.filter isLdJsonBlock) url).1 = _
    show (extractLoop (pre.filter isLdJsonBlock) url).1
        ++ ((extractStep bad url).1 ++ (extractLoop (post.filter isLdJsonBlock) url).1) = _
    rw [hstep]
    rfl
  · show (extractLoop ((pre ++ bad :: post).filter isLdJsonBlock) url).2
      = (extractLoop (pre.filter isLdJsonBlock) url).2
          ++ parseWarning url :: (extractLoop (post.filter isLdJsonBlock) url).2
    rw [hfilter, extractLoop_append]
    show (extractLoop (pre.filter isLdJsonBlock) url).2
        ++ ((extractStep bad url).2 ++ (extractLoop (post.filter isLdJsonBlock) url).2) = _
    rw [hstep]
    rfl

/-- C6 witness: a document with a valid block, a malformed block (`"{"`)
and another valid block — the malformed one only contributes a warning. -/
theorem C6_malformed_block_skipped_witness :
    ((⟨some "application/ld+json", "\x7b"⟩ : ScriptBlock).typeAttr
        = some "application/ld+json")
    ∧ ((⟨some "application/ld+json", "\x7b"⟩ : ScriptBlock).content ≠ "")
    ∧ parseJson (⟨some "application/ld+json", "\x7b"⟩ : ScriptBlock).content = none
    ∧ ((extractJsonLdSchemas
          ([⟨some "application/ld+json", "true"⟩]
            ++ (⟨some "application/ld+json", "\x7b"⟩ : ScriptBlock)
              :: [⟨some "application/ld+json", "1"⟩]) "u").1.schemas
        = (extractJsonLdSchemas
            ([⟨some "application/ld+json", "true"⟩]
              ++ [⟨some "application/ld+json", "1"⟩]) "u").1.schemas) := by
  refine ⟨rfl, by decide, by decide, ?_⟩
  exact (C6_malformed_block_skipped
    [⟨some "application/ld+json", "true"⟩]
    [⟨some "application/ld+json", "1"⟩]
    ⟨some "application/ld+json", "\x7b"⟩ "u" rfl (by decide) (by decide)).1

/-! ### The comparison aggregator (`compareSchemasOfType`, `compareSchemas`) -/

/-- The per-type comparison record of `compareSchemasOfType`. -/
structure TypeComparison where
  type : String
  count1 : Nat
  count2 : Nat
  differences : List DiffEntry
  identical : Bool

/-- Function `compareSchemasOfType` from `schema-diff.ts`: normalize both sides'
instance lists, stably sort each with the serialized-form comparator
(the instance lists are JavaScript arrays, diffed as arrays at the
root), diff them with `deep-diff`, and report counts, differences and
the identical flag (true when `deep-diff` reported nothing). -/
def compareSchemasOfType (t : String) (schemas1 schemas2 : List JsonValue) :
    TypeComparison :=
  let normalized1 := List.insertionSort rv (schemas1.map normalizeSchema)
  let normalized2 := List.insertionSort rv (schemas2.map normalizeSchema)
  let differences := ddiff [] (.arr normalized1) (.arr normalized2)
  { type := t, count1 := schemas1.length, count2 := schemas2.length,
    differences := differences, identical := differences.isEmpty }

/-- The report record of `compareSchemas`. -/
structure ComparisonReport where
  url1 : String
  url2 : String
  totalSchemas1 : Nat
  totalSchemas2 : Nat
  typeCounts1 : List (String × Nat)
  typeCounts2 : List (String × Nat)
  typeComparisons : List TypeComparison
  allTypesIdentical : Bool

/-- First-occurrence deduplication, as iterating a JavaScript `Set`
built from a concatenation yields its elements. -/
def dedupFirst : List String → List String
  | [] => []
  | x :: xs => x :: (dedupFirst xs).filter (fun y => !(y == x))

/-- The read `schemasByType.get(type) || []`. -/
def bucketGet (m : List (String × List JsonValue)) (t : String) : List JsonValue :=
  match m.find? (fun p => p.1 == t) with
  | some p => p.2
  | none => []

/-- The `Set` of type keys seen on either side, in insertion order. -/
def typeKeysUnion (s1 s2 : JsonLdSchema) : List String :=
  dedupFirst (s1.schemasByType.map Prod.fst ++ s2.schemasByType.map Prod.fst)

/-- Function `compareSchemas` from `schema-diff.ts`: one `compareSchemasOfType`
per type key in the union of both sides' keys, type counts per side,
total counts, and `allTypesIdentical` as the conjunction of the
per-type identical flags. -/
def compareSchemas (s1 s2 : JsonLdSchema) : ComparisonReport :=
  let allTypes := typeKeysUnion s1 s2
  let typeComparisons := allTypes.map (fun t =>
    compareSchemasOfType t (bucketGet s1.schemasByType t) (bucketGet s2.schemasByType t))
  { url1 := s1.url, url2 := s2.url,
    totalSchemas1 := s1.schemas.length, totalSchemas2 := s2.schemas.length,
    typeCounts1 := s1.schemasByType.map (fun p => (p.1, p.2.length)),
    typeCounts2 := s2.schemasByType.map (fun p => (p.1, p.2.length)),
    typeComparisons := typeComparisons,
    allTypesIdentical := typeComparisons.all (fun c => c.identical) }

theorem mem_dedupFirst : ∀ (l : List String) (t : String), t ∈ dedupFirst l ↔ t ∈ l
  | [], t => by simp [dedupFirst]
  | x :: xs, t => by
      show t ∈ x :: (dedupFirst xs).filter (fun y => !(y == x)) ↔ t ∈ x :: xs
      rw [List.mem_cons, List.mem_cons, List.mem_filter]
      constructor
      · rintro (rfl | ⟨hmem, -⟩)
        · exact Or.inl rfl
        · exact Or.inr ((mem_dedupFirst xs t).mp hmem)
      · rintro (rfl | hmem)
        · exact Or.inl rfl
        · by_cases hx : t = x
          · exact Or.inl hx
          · refine Or.inr ⟨(mem_dedupFirst xs t).mpr hmem, ?_⟩
            simp [hx]

/-- C7: in the report of `compareSchemas`, `allTypesIdentical` is true
exactly when, for every type key in the union of both sides' type keys,
the diff-entry list computed for that type is empty; the union list
contains precisely the keys occurring on either side (so equal counts
with differing content, which leave a non-empty diff list, cannot make
the flag true). -/
theorem C7_allTypesIdentical_iff :
    ∀ s1 s2 : JsonLdSchema,
      ((compareSchemas s1 s2).allTypesIdentical = true
        ↔ ∀ t ∈ typeKeysUnion s1 s2,
            (compareSchemasOfType t (bucketGet s1.schemasByType t)
              (bucketGet s2.schemasByType t)).differences = [])
      ∧ (∀ t : String, t ∈ typeKeysUnion s1 s2
          ↔ (t ∈ s1.schemasByType.map Prod.fst ∨ t ∈ s2.schemasByType.map Prod.fst)) := by
  intro s1 s2
  constructor
  · show ((typeKeysUnion s1 s2).map (fun t =>
        compareSchemasOfType t (bucketGet s1.schemasByType t)
          (bucketGet s2.schemasByType t))).all (fun c => c.identical) = true ↔ _
    rw [List.all_eq_true]
    constructor
    · intro h t ht
      have h2 := h _ (List.mem_map_of_mem _ ht)
      have h3 : ((ddiff [] (.arr (List.insertionSort rv
          ((bucketGet s1.schemasByType t).map normalizeSchema)))
          (.arr (List.insertionSort rv
          ((bucketGet s2.schemasByType t).map normalizeSchema)))).isEmpty) = true := h2
      rw [List.isEmpty_iff] at h3
      exact h3
    · intro h c hc
      rw [List.mem_map] at hc
      obtain ⟨t, ht, rfl⟩ := hc
      show ((ddiff [] _ _).isEmpty) = true
      rw [List.isEmpty_iff]
      exact h t ht
  · intro t
    show t ∈ dedupFirst (s1.schemasByType.map Prod.fst ++ s2.schemasByType.map Prod.fst) ↔ _
    rw [mem_dedupFirst, List.mem_append]

/-! ### HTML canonicalization (`transformHtml`'s DOM rewriting) -/

/-- A node of the parsed HTML tree: an element with tag, attributes and
children, or a text node. -/
inductive HNode where
  | elem (tag : String) (attribs : List (String × String)) (children : List HNode) : HNode
  | text (s : String) : HNode

mutual

/-- Boolean equality on `HNode` (for decidable equality on the nested
inductive). -/
def heq2 : HNode → HNode → Bool
  | .text s, .text t => s == t
  | .elem t1 a1 c1, .elem t2 a2 c2 => t1 == t2 && a1 == a2 && heqList c1 c2
  | _, _ => false

/-- Pointwise `heq2` on node lists. -/
def heqList : List HNode → List HNode → Bool
  | [], [] => true
  | n :: ns, m :: ms => heq2 n m && heqList ns ms
  | _, _ => false

end

mutual

theorem heq2_iff : ∀ n m, heq2 n m = true ↔ n = m
  | .text s, m => by cases m <;> simp [heq2]
  | .elem t1 a1 c1, m => by
      cases m with
      | text t => simp [heq2]
      | elem t2 a2 c2 => simp [heq2, heqList_iff c1 c2, and_assoc]

theorem heqList_iff : ∀ l m, heqList l m = true ↔ l = m
  | [], m => by cases m <;> simp [heqList]
  | n :: ns, m => by
      cases m with
      | nil => simp [heqList]
      | cons w ws => simp [heqList, heq2_iff n w, heqList_iff ns ws]

end

instance : DecidableEq HNode := fun n m =>
  decidable_of_iff (heq2 n m = true) (heq2_iff n m)

/-- Prefix test on character lists. -/
def strStarts : List Char → List Char → Bool
  | [], _ => true
  | _ :: _, [] => false
  | p :: ps, c :: cs => p == c && strStarts ps cs

/-- The attributes `transformHtml` strips from every element:
`class`, `srcset`, `imagesrcset`, `style`, `onclick` and every
`data-*` attribute. -/
def strippedAttr (a : String) : Bool :=
  a == "class" || a == "srcset" || a == "imagesrcset" || a == "style" || a == "onclick"
    || strStarts ("data-".data) a.data

/-- Attribute read on an element's attribute list. -/
def attrLookup (attrs : List (String × String)) (k : String) : Option String :=
  (attrs.find? (fun p => p.1 == k)).map Prod.snd

/-- Text-node test (cheerio's `.children()` yields element children
only, so `$(svg).children().remove()` leaves text children in place). -/
def isTextNode : HNode → Bool
  | .text _ => true
  | .elem _ _ _ => false

mutual

/-- The DOM-rewriting phase of `transformHtml` (`simplify-html.ts`), as
the net effect on one node: drop every `<script>` whose `type` is not
exactly `application/ld+json`, every `<style>`, every `<link>` whose
`rel` is not exactly `canonical` and every `<template>`; empty every
`<svg>` of its attributes and its element children (text children are
untouched, since `.children()` selects elements); strip the
`strippedAttr` attributes from every remaining element and recurse.
The source performs these as successive whole-document passes; pass
order only matters for nodes a later pass removes anyway, so the net
effect per node is the same. -/
def transformNode : HNode → List HNode
  | .text s => [.text s]
  | .elem tag attrs children =>
      if tag = "script" then
        if attrLookup attrs "type" = some "application/ld+json" then
          [.elem tag (attrs.filter fun p => !(strippedAttr p.1)) (transformNodes children)]
        else []
      else if tag = "style" then []
      else if tag = "link" then
        if attrLookup attrs "rel" = some "canonical" then
          [.elem tag (attrs.filter fun p => !(strippedAttr p.1)) (transformNodes children)]
        else []
      else if tag = "template" then []
      else if tag = "svg" then
        [.elem tag [] (children.filter isTextNode)]
      else
        [.elem tag (attrs.filter fun p => !(strippedAttr p.1)) (transformNodes children)]

/-- Map of `transformNode` over a node list. -/
def transformNodes : List HNode → List HNode
  | [] => []
  | n :: ns => transformNode n ++ transformNodes ns

end

mutual

/-- Every node of a forest, root nodes included. -/
def allNodesList : List HNode → List HNode
  | [] => []
  | n :: ns => allNodesNode n ++ allNodesList ns

/-- Every node of a tree, the root included. -/
def allNodesNode : HNode → List HNode
  | .text s => [.text s]
  | .elem t a c => .elem t a c :: allNodesList c

end

theorem allNodesList_append : ∀ a b : List HNode,
    allNodesList (a ++ b) = allNodesList a ++ allNodesList b
  | [], b => by simp [allNodesList]
  | n :: ns, b => by
      show allNodesNode n ++ allNodesList (ns ++ b) = _
      rw [allNodesList_append ns b]
      show _ = (allNodesNode n ++ allNodesList ns) ++ allNodesList b
      rw [List.append_assoc]

/-- The claim's property of a node: an `<svg>` element has no
attributes and no children at all. -/
def svgEmptyClaim (n : HNode) : Bool :=
  match n with
  | .elem t attrs children => !(t == "svg") || (attrs.isEmpty && children.isEmpty)
  | .text _ => true

/-- The amended property: an `<svg>` element has no attributes and no
element children (text children may remain). -/
def svgEmptyAmended (n : HNode) : Bool :=
  match n with
  | .elem t attrs children => !(t == "svg") || (attrs.isEmpty && children.all isTextNode)
  | .text _ => true

theorem mem_allNodes_single {m : HNode} {t : String} {a : List (String × String)}
    {c : List HNode} :
    m ∈ allNodesList [.elem t a c] ↔ (m = .elem t a c ∨ m ∈ allNodesList c) := by
  show m ∈ allNodesNode (.elem t a c) ++ allNodesList [] ↔ _
  simp [allNodesNode, allNodesList]

theorem allNodes_texts : ∀ l : List HNode, (∀ x ∈ l, isTextNode x = true) →
    ∀ m ∈ allNodesList l, svgEmptyAmended m = true := by
  intro l
  induction l with
  | nil =>
      intro _ m hm
      simp [allNodesList] at hm
  | cons n ns ih =>
      intro h m hm
      have hm2 : m ∈ allNodesNode n ++ allNodesList ns := hm
      have hn := h n (List.mem_cons_self _ _)
      cases n with
      | text s =>
          rcases List.mem_append.mp hm2 with h2 | h2
          · have : m = .text s := by simpa [allNodesNode] using h2
            rw [this]
            rfl
          · exact ih (fun x hx => h x (List.mem_cons_of_mem _ hx)) m h2
      | elem t a c => exact absurd hn (by simp [isTextNode])

mutual

theorem transformNode_svgAmended : ∀ n : HNode,
    ∀ m ∈ allNodesList (transformNode n), svgEmptyAmended m = true
  | .text s => by
      intro m hm
      have h2 : m ∈ allNodesList [HNode.text s] := hm
      have : m = .text s := by simpa [allNodesList, allNodesNode] using h2
      rw [this]
      rfl
  | .elem tag attrs children => by
      intro m hm
      unfold transformNode at hm
      by_cases h1 : tag = "script"
      · rw [if_pos h1] at hm
        by_cases h1b : attrLookup attrs "type" = some "application/ld+json"
        · rw [if_pos h1b] at hm
          rcases mem_allNodes_single.mp hm with rfl | hm2
          · subst h1
            rfl
          · exact transformNodes_svgAmended children m hm2
        · rw [if_neg h1b] at hm
          simp [allNodesList] at hm
      · rw [if_neg h1] at hm
        by_cases h2 : tag = "style"
        · rw [if_pos h2] at hm
          simp [allNodesList] at hm
        · rw [if_neg h2] at hm
          by_cases h3 : tag = "link"
          · rw [if_pos h3] at hm
            by_cases h3b : attrLookup attrs "rel" = some "canonical"
            · rw [if_pos h3b] at hm
              rcases mem_allNodes_single.mp hm with rfl | hm2
              · subst h3
                rfl
              · exact transformNodes_svgAmended children m hm2
            · rw [if_neg h3b] at hm
              simp [allNodesList] at hm
          · rw [if_neg h3] at hm
            by_cases h4 : tag = "template"
            · rw [if_pos h4] at hm
              simp [allNodesList] at hm
            · rw [if_neg h4] at hm
              by_cases h5 : tag = "svg"
              · rw [if_pos h5] at hm
                rcases mem_allNodes_single.mp hm with rfl | hm2
                · subst h5
                  show (children.filter isTextNode).all isTextNode = true
                  rw [List.all_eq_true]
                  intro x hx
                  exact (List.mem_filter.mp hx).2
                · exact allNodes_texts (children.filter isTextNode)
                    (fun x hx => (List.mem_filter.mp hx).2) m hm2
              · rw [if_neg h5] at hm
                rcases mem_allNodes_single.mp hm with rfl | hm2
                · show (!(tag == "svg")
                      || ((attrs.filter fun p => !(strippedAttr p.1)).isEmpty
                        && (transformNodes children).all isTextNode)) = true
                  have hb : (tag == "svg") = false := by
                    simpa using h5
                  rw [hb]
                  rfl
                · exact transformNodes_svgAmended children m hm2

theorem transformNodes_svgAmended : ∀ l : List HNode,
    ∀ m ∈ allNodesList (transformNodes l), svgEmptyAmended m = true
  | [] => by
      intro m hm
      simp [transformNodes, allNodesList] at hm
  | n :: ns => by
      intro m hm
      have hm2 : m ∈ allNodesList (transformNode n ++ transformNodes ns) := hm
      rw [allNodesList_append] at hm2
      rcases List.mem_append.mp hm2 with h | h
      · exact transformNode_svgAmended n m h
      · exact transformNodes_svgAmended ns m h

end

/-- C8 counterexample: the claim "after `transformHtml` every `<svg>`
has no children and no attributes" fails — cheerio's `.children()`
selects element children only, so an `<svg>` with a direct text child
keeps that text: on `<svg width="5">hi</svg>` the result still contains
`<svg>hi</svg>`, whose child list is not empty. -/
theorem C8_counterexample :
    ¬ ∀ roots : List HNode, ∀ n ∈ allNodesList (transformNodes roots),
        svgEmptyClaim n = true := by
  intro hAll
  have h := hAll [.elem "svg" [("width", "5")] [.text "hi"]]
    (.elem "svg" [] [.text "hi"]) (by decide)
  revert h
  decide

/-- C8 (amended): after the DOM rewriting of `transformHtml`, every
`<svg>` element in the resulting tree has no attributes and no element
children; direct text children are the only possible remnants. -/
theorem C8_svg_emptied_amended : ∀ roots : List HNode,
    ∀ n ∈ allNodesList (transformNodes roots), svgEmptyAmended n = true :=
  transformNodes_svgAmended

/-- C8 witness: the amended theorem applied to a concrete `<svg>` with
an attribute, a text child and an element child. -/
theorem C8_svg_emptied_amended_witness :
    ((HNode.elem "svg" [] [.text "hi"]) ∈ allNodesList
        (transformNodes [.elem "svg" [("width", "5")] [.text "hi", .elem "g" [] []]]))
    ∧ svgEmptyAmended (.elem "svg" [] [.text "hi"]) = true :=
  ⟨by decide, C8_svg_emptied_amended
    [.elem "svg" [("width", "5")] [.text "hi", .elem "g" [] []]]
    (.elem "svg" [] [.text "hi"]) (by decide)⟩
